import Mathlib

/-!
Shallow embedding of the search engine in `src/search_engine.py`
(class `SearchEngine`), together with theorems settling the frozen claims
about it.  Python strings are modelled as `List Char` (sequences of code
points, so match offsets are character indices, as in Python), byte strings
as `List Nat`, and the filesystem as an inductive tree.  The external
regular-expression engine (`re.compile` in regex mode) is a parameter; the
literal mode (`re.escape` + optional word-boundary wrap) is implemented
concretely.  ASCII case folding models `re.IGNORECASE` and `\w`.
-/

/-- Python strings: sequences of code points. -/
abbrev Str := List Char

/-- The `SearchMatch` dataclass (search_engine.py lines 71-80). -/
structure SearchMatch where
  file_path : Str
  line_number : Nat
  line_content : Str
  match_start : Nat
  match_end : Nat
  context_before : List Str
  context_after : List Str
deriving DecidableEq

/-- The configuration fields of `SearchEngine.__init__` (lines 109-126)
that the search path reads.  `context_lines` is a `Nat` because
`set_context_lines` clamps it to `max 0`. -/
structure SearchConfig where
  case_sensitive : Bool := false
  use_regex : Bool := false
  whole_word : Bool := false
  search_metadata : Bool := false
  search_file_metadata : Bool := false
  search_in_archives : Bool := false
  hex_search : Bool := false
  context_lines : Nat := 2
  file_extensions : List Str := []
  max_results : Nat := 0
  max_search_file_size : Nat := 50 * 1024 * 1024
  exclude_patterns : List Str :=
    ["\\.git".data, "\\.svn".data, "__pycache__".data, "node_modules".data,
     "\\.pyc$".data, "\\.exe$".data, "\\.dll$".data, "\\.so$".data, "\\.bin$".data]

/-- A member of a zip archive: its internal name, the `file_size` reported by
`getinfo`, whether `zf.read` succeeds, and the raw bytes it yields. -/
structure ZipMember where
  name : Str
  fileSize : Nat
  readOk : Bool := true
  bytes : List Nat := []

/-- A file on disk: `size` is `os.path.getsize`; `readOk` models whether
`open` succeeds; `bytes` the raw content; `zipOk`/`members` model whether
`zipfile.ZipFile` opens it and what it contains; `metadata` models the
key/value map the external metadata libraries (PIL, PyPDF2, ...) extract
(empty when the library is unavailable or extraction raises). -/
structure FileNode where
  size : Nat
  readOk : Bool := true
  bytes : List Nat := []
  zipOk : Bool := true
  members : List ZipMember := []
  metadata : List (Str × Str) := []

/-- A filesystem tree rooted at a path: either a single file or a directory
whose entries pair a name with a subtree. -/
inductive FSTree where
  | file : FileNode → FSTree
  | dir : List (Str × FSTree) → FSTree

/-- `pat` is an initial segment of `s` (Boolean, by decidable equality). -/
def leadsWith : Str → Str → Bool
  | [], _ => true
  | _ :: _, [] => false
  | a :: ps, b :: ss => a == b && leadsWith ps ss

/-- `pat` occurs somewhere in `s` as a contiguous substring. -/
def containsSub (pat : Str) : Str → Bool
  | [] => pat.isEmpty
  | c :: rest => leadsWith pat (c :: rest) || containsSub pat rest

/-- Python `s.endswith(pat)`. -/
def endsWithStr (pat s : Str) : Bool := leadsWith pat.reverse s.reverse

/-- Python `line.rstrip('\n\r')`: drop trailing newline / carriage-return
characters. -/
def rstripNl (s : Str) : Str :=
  (s.reverse.dropWhile (fun c => c == '\n' || c == '\r')).reverse

/-- `path.replace('\\', '/')` in `_is_excluded` (line 208). -/
def normalizeSep (p : Str) : Str :=
  p.map (fun c => if c == '\\' then '/' else c)

/-- `os.path.join(root, name)` on a POSIX system. -/
def joinPath (root name : Str) : Str := root ++ '/' :: name

/-- Accumulator for Python `text.split('\n')`. -/
def splitOnNlGo : Str → Str → List Str
  | [], acc => [acc.reverse]
  | c :: rest, acc =>
    if c == '\n' then acc.reverse :: splitOnNlGo rest [] else splitOnNlGo rest (c :: acc)

/-- Python `text.split('\n')` (so `"".split` is `[""]`, and a trailing
newline yields a final empty piece). -/
def splitOnNl (s : Str) : List Str := splitOnNlGo s []

/-- Accumulator for `splitLinesKeep`. -/
def splitLinesKeepGo : Str → Str → List Str
  | [], acc => if acc.isEmpty then [] else [acc.reverse]
  | c :: rest, acc =>
    if c == '\n' then (acc.reverse ++ ['\n']) :: splitLinesKeepGo rest []
    else splitLinesKeepGo rest (c :: acc)

/-- `f.readlines()`: split after each newline, keeping the newline; a final
piece with no newline is kept; an empty text gives no lines. -/
def splitLinesKeep (s : Str) : List Str := splitLinesKeepGo s []

/-- Universal-newline translation done by text-mode `open`: `\r\n` and a
lone `\r` both become `\n`. -/
def univNl : Str → Str
  | [] => []
  | '\r' :: '\n' :: rest => '\n' :: univNl rest
  | '\r' :: rest => '\n' :: univNl rest
  | c :: rest => c :: univNl rest

/-- Is `b` a UTF-8 continuation byte (`0x80..0xBF`)? -/
def contByte (b : Nat) : Bool := 128 ≤ b && b ≤ 191

/-- The allowed range of the first continuation byte after start byte `b` of
a multi-byte sequence (RFC 3629, as CPython checks it). -/
def cont1ok (b c1 : Nat) : Bool :=
  if b == 224 then 160 ≤ c1 && c1 ≤ 191
  else if b == 237 then 128 ≤ c1 && c1 ≤ 159
  else if b == 240 then 144 ≤ c1 && c1 ≤ 191
  else if b == 244 then 128 ≤ c1 && c1 ≤ 143
  else contByte c1

/-- The decoding loop of `utf8DecodeIgnore`, structurally recursive on a
fuel that `utf8DecodeIgnore` passes as the byte count (every step consumes
at least one byte, so the fuel never runs out). -/
def utf8Go : Nat → List Nat → List Char
  | 0, _ => []
  | _ + 1, [] => []
  | fuel + 1, b :: rest =>
    if b < 128 then Char.ofNat b :: utf8Go fuel rest
    else if 194 ≤ b && b ≤ 223 then
      match rest with
      | [] => []
      | c1 :: r1 =>
        if contByte c1 then
          Char.ofNat ((b - 192) * 64 + (c1 - 128)) :: utf8Go fuel r1
        else utf8Go fuel rest
    else if 224 ≤ b && b ≤ 239 then
      match rest with
      | [] => []
      | c1 :: r1 =>
        if cont1ok b c1 then
          match r1 with
          | [] => []
          | c2 :: r2 =>
            if contByte c2 then
              Char.ofNat ((b - 224) * 4096 + (c1 - 128) * 64 + (c2 - 128)) ::
                utf8Go fuel r2
            else utf8Go fuel r1
        else utf8Go fuel rest
    else if 240 ≤ b && b ≤ 244 then
      match rest with
      | [] => []
      | c1 :: r1 =>
        if cont1ok b c1 then
          match r1 with
          | [] => []
          | c2 :: r2 =>
            if contByte c2 then
              match r2 with
              | [] => []
              | c3 :: r3 =>
                if contByte c3 then
                  Char.ofNat ((b - 240) * 262144 + (c1 - 128) * 4096 +
                    (c2 - 128) * 64 + (c3 - 128)) :: utf8Go fuel r3
                else utf8Go fuel r2
            else utf8Go fuel r1
        else utf8Go fuel rest
    else utf8Go fuel rest

/-- Python `bytes.decode('utf-8', errors='ignore')`: decode UTF-8, dropping
each maximal invalid subpart, and dropping a truncated sequence at the end. -/
def utf8DecodeIgnore (l : List Nat) : List Char := utf8Go l.length l

/-- The validity loop of `utf8Valid`, fuelled like `utf8Go`. -/
def utf8ValidGo : Nat → List Nat → Bool
  | 0, _ => true
  | _ + 1, [] => true
  | fuel + 1, b :: rest =>
    if b < 128 then utf8ValidGo fuel rest
    else if 194 ≤ b && b ≤ 223 then
      match rest with
      | [] => false
      | c1 :: r1 => contByte c1 && utf8ValidGo fuel r1
    else if 224 ≤ b && b ≤ 239 then
      match rest with
      | [] => false
      | c1 :: r1 =>
        cont1ok b c1 &&
          match r1 with
          | [] => false
          | c2 :: r2 => contByte c2 && utf8ValidGo fuel r2
    else if 240 ≤ b && b ≤ 244 then
      match rest with
      | [] => false
      | c1 :: r1 =>
        cont1ok b c1 &&
          match r1 with
          | [] => false
          | c2 :: r2 =>
            contByte c2 &&
              match r2 with
              | [] => false
              | c3 :: r3 => contByte c3 && utf8ValidGo fuel r3
    else false

/-- Do the bytes decode as UTF-8 without error (strict decoding succeeds)? -/
def utf8Valid (l : List Nat) : Bool := utf8ValidGo l.length l

/-- Reading a file in text mode with `errors='ignore'` (line 257): lenient
decode, universal newlines, then `readlines`. -/
def readLinesOf (bytes : List Nat) : List Str :=
  splitLinesKeep (univNl (utf8DecodeIgnore bytes))

/-- ASCII case folding used to model `re.IGNORECASE` (`ci` = ignore case). -/
def foldCase (ci : Bool) (c : Char) : Char := if ci then c.toLower else c

/-- `leadsWith` up to case folding. -/
def leadsWithCi (ci : Bool) : Str → Str → Bool
  | [], _ => true
  | _ :: _, [] => false
  | a :: ps, b :: ss => foldCase ci a == foldCase ci b && leadsWithCi ci ps ss

/-- `re.finditer` for an escaped literal pattern: scan left to right from
offset `i`, emitting non-overlapping spans; after a match of length `L` the
scan resumes at its end (the `skip` counter suppresses the next `L - 1`
positions), and an empty pattern matches at every offset, as in Python. -/
def litFA (ci : Bool) (pat : Str) : Str → Nat → Nat → List (Nat × Nat)
  | [], i, _ => if pat.isEmpty then [(i, i)] else []
  | _ :: t, i, skip + 1 => litFA ci pat t (i + 1) skip
  | c :: t, i, 0 =>
    if pat.isEmpty then (i, i) :: litFA ci pat t (i + 1) 0
    else if leadsWithCi ci pat (c :: t) then
      (i, i + pat.length) :: litFA ci pat t (i + 1) (pat.length - 1)
    else litFA ci pat t (i + 1) 0

/-- The compiled matcher for a literal (escaped) pattern. -/
def litFinditer (ci : Bool) (pat s : Str) : List (Nat × Nat) := litFA ci pat s 0 0

/-- The regex word character class `\w` (ASCII model). -/
def isWordChar (c : Char) : Bool := c.isAlphanum || c == '_'

/-- Is the character at index `i` (if any) a word character? -/
def wordAt (s : Str) (i : Nat) : Bool :=
  match s.drop i with
  | [] => false
  | c :: _ => isWordChar c

/-- Does `\b` match at offset `i` of `s`? -/
def boundaryAt (s : Str) (i : Nat) : Bool :=
  (if i == 0 then false else wordAt s (i - 1)) != wordAt s i

/-- `re.finditer` for `\b` + escaped literal + `\b` (the `whole_word` wrap of
line 159): positions are scanned left to right, a successful match resumes
after its end. -/
def wordFA (ci : Bool) (pat s : Str) (i : Nat) : List (Nat × Nat) :=
  if s.length < i then []
  else if hp : pat = [] then
    (if boundaryAt s i then [(i, i)] else []) ++
      (if i < s.length then wordFA ci pat s (i + 1) else [])
  else
    if leadsWithCi ci pat (s.drop i) && boundaryAt s i && boundaryAt s (i + pat.length) then
      (i, i + pat.length) ::
        (if i < s.length then wordFA ci pat s (i + pat.length) else [])
    else if i < s.length then wordFA ci pat s (i + 1) else []
termination_by s.length + 1 - i
decreasing_by
  all_goals simp_wf
  all_goals try omega
  all_goals (have h0 : 0 < pat.length := List.length_pos.mpr hp; omega)

/-- The compiled matcher for whole-word literal mode. -/
def wordFinditer (ci : Bool) (pat s : Str) : List (Nat × Nat) := wordFA ci pat s 0

/-- A compiled matcher: all spans `(start, end)` of the pattern in a string,
in order, non-overlapping (the `finditer` contract). -/
abbrev Matcher := Str → List (Nat × Nat)

/-- The `finditer` contract a real matcher satisfies: spans lie within the
searched string. -/
def MatcherOK (m : Matcher) : Prop :=
  ∀ s sp, sp ∈ m s → sp.1 ≤ sp.2 ∧ sp.2 ≤ s.length

/-- The pattern-compilation step of `search` (lines 150-164).  In regex mode
the external engine `compileRegex` (a model of `re.compile`, given the
case-sensitivity flag) may fail; in literal mode `re.escape` makes the
pattern literal, optionally wrapped in word boundaries, and never fails. -/
def compilePattern (compileRegex : Bool → Str → Option Matcher)
    (cfg : SearchConfig) (pattern : Str) : Option Matcher :=
  if cfg.use_regex then compileRegex cfg.case_sensitive pattern
  else if cfg.whole_word then
    some (fun s => wordFinditer (!cfg.case_sensitive) pattern s)
  else some (fun s => litFinditer (!cfg.case_sensitive) pattern s)

/-- One lowercase hex digit. -/
def hexDigit (n : Nat) : Char := Char.ofNat (if n < 10 then 48 + n else 87 + n)

/-- A byte as two lowercase hex digits. -/
def byteHex (b : Nat) : Str := [hexDigit (b / 16 % 16), hexDigit (b % 16)]

/-- Python `bytes.hex(' ')`: hex byte pairs separated by single spaces. -/
def hexSpaced : List Nat → Str
  | [] => []
  | b :: rest =>
    byteHex b ++ (match rest with | [] => [] | _ :: _ => ' ' :: hexSpaced rest)

/-- Big-endian hex digits of `n` accumulated onto `acc` (the first argument
is fuel, always sufficient since a number has no more hex digits than its
own magnitude). -/
def natHexAux : Nat → Nat → Str → Str
  | 0, _, acc => acc
  | fuel + 1, n, acc =>
    if n = 0 then acc
    else natHexAux fuel (n / 16) (hexDigit (n % 16) :: acc)

/-- `n` in lowercase hexadecimal (no padding). -/
def natToHex (n : Nat) : Str := if n = 0 then ['0'] else natHexAux n n []

/-- Zero-pad to width 8, as `f"{n:08x}"` does. -/
def pad8 (s : Str) : Str := List.replicate (8 - s.length) '0' ++ s

/-- `[lines[j] for j in range(a, b)]` with each line rstripped, as the
context-window code computes it (clamping is the caller's `max`/`min`). -/
def ctxSlice (lines : List Str) (a b : Nat) : List Str :=
  ((lines.drop a).take (b - a)).map rstripNl

/-- The body of the per-line loop of `_search_file` (lines 262-283) and of
`_search_archive` (lines 683-705): one `SearchMatch` per span the matcher
finds in `line`, with the clamped context window around index `i`. -/
def lineMatches (cfg : SearchConfig) (mat : Matcher) (path : Str)
    (lines : List Str) (i : Nat) (line : Str) : List SearchMatch :=
  (mat line).map (fun sp =>
    { file_path := path, line_number := i + 1, line_content := rstripNl line,
      match_start := sp.1, match_end := sp.2,
      context_before :=
        if 0 < cfg.context_lines then ctxSlice lines (i - cfg.context_lines) i else [],
      context_after :=
        if 0 < cfg.context_lines then
          ctxSlice lines (i + 1) (min lines.length (i + cfg.context_lines + 1))
        else [] })

/-- The `for i, line in enumerate(lines)` loop over the remaining lines,
`i` being the index of the first of them. -/
def textGo (cfg : SearchConfig) (mat : Matcher) (path : Str)
    (allLines : List Str) : List Str → Nat → List SearchMatch
  | [], _ => []
  | l :: rest, i =>
    lineMatches cfg mat path allLines i l ++ textGo cfg mat path allLines rest (i + 1)

/-- The plain-text extractor's line loop (lines 261-283), applied to the
lines `readlines` returned (each still carrying its newline). -/
def searchTextLines (cfg : SearchConfig) (mat : Matcher) (path : Str)
    (lines : List Str) : List SearchMatch :=
  textGo cfg mat path lines lines 0

/-- The metadata line loop shared by `_search_image_metadata` (lines 303-321)
and `_search_file_metadata` (lines 377-395): each key/value pair becomes the
line `"key: value"`, line numbers count pairs from 1, no context. -/
def metaGo (path : Str) (mat : Matcher) : List (Str × Str) → Nat → List SearchMatch
  | [], _ => []
  | (k, v) :: rest, idx =>
    (mat (k ++ ':' :: ' ' :: v)).map (fun sp =>
      { file_path := path, line_number := idx, line_content := k ++ ':' :: ' ' :: v,
        match_start := sp.1, match_end := sp.2,
        context_before := [], context_after := [] }) ++ metaGo path mat rest (idx + 1)

/-- Search the synthetic metadata lines of a file. -/
def metadataMatches (path : Str) (md : List (Str × Str)) (mat : Matcher) :
    List SearchMatch :=
  metaGo path mat md 1

/-- Searching one archive member (lines 672-708): lenient-decode its bytes,
split on newlines, and run the shared line loop; the reported path is the
composite `f"{file_path}/{member}"`. -/
def searchArchiveMember (cfg : SearchConfig) (mat : Matcher) (archPath : Str)
    (m : ZipMember) : List SearchMatch :=
  textGo cfg mat (joinPath archPath m.name) (splitOnNl (utf8DecodeIgnore m.bytes))
    (splitOnNl (utf8DecodeIgnore m.bytes)) 0

/-- The member loop of `_search_archive` (lines 662-711): directory entries
and oversized members are skipped, unreadable members contribute nothing. -/
def archGo (cfg : SearchConfig) (mat : Matcher) (path : Str) :
    List ZipMember → List SearchMatch
  | [] => []
  | m :: rest =>
    (if endsWithStr "/".data m.name then []
     else if cfg.max_search_file_size < m.fileSize then []
     else if !m.readOk then []
     else searchArchiveMember cfg mat path m) ++ archGo cfg mat path rest

/-- `_search_archive` (lines 653-716): a file that does not open as a zip
yields nothing. -/
def searchArchive (cfg : SearchConfig) (mat : Matcher) (path : Str)
    (n : FileNode) : List SearchMatch :=
  if n.zipOk then archGo cfg mat path n.members else []

/-- `_search_binary` (lines 718-758): lenient-decode the whole content, run
the matcher over it, and report each span's start as the "line number",
with a synthesized offset + hex-dump line over the raw bytes
`content[max(0, off - 16) : min(len(content), off + 16)]`. -/
def searchBinary (path : Str) (content : List Nat) (mat : Matcher) :
    List SearchMatch :=
  (mat (utf8DecodeIgnore content)).map (fun sp =>
    { file_path := path, line_number := sp.1,
      line_content := "Offset ".data ++ pad8 (natToHex sp.1) ++ ": ".data ++
        hexSpaced ((content.drop (sp.1 - 16)).take (min content.length (sp.1 + 16) - (sp.1 - 16))),
      match_start := sp.1, match_end := sp.2,
      context_before := [], context_after := [] })

/-- The basename of a path (the part after the last `/`). -/
def baseNameOf (p : Str) : Str :=
  (p.reverse.takeWhile (fun c => !(c == '/'))).reverse

/-- `os.path.splitext(base)[1]` for a basename: the suffix from the last dot,
unless every character before that dot is itself a dot. -/
def extOfBase (base : Str) : Str :=
  let afterDot := base.reverse.takeWhile (fun c => !(c == '.'))
  if afterDot.length == base.length then []
  else
    let stem := base.take (base.length - afterDot.length - 1)
    if stem.all (fun c => c == '.') then [] else '.' :: afterDot.reverse

/-- `os.path.splitext(file_path)[1].lower()` (line 224). -/
def extOf (p : Str) : Str := (extOfBase (baseNameOf p)).map Char.toLower

/-- `SearchEngine.IMAGE_EXTENSIONS` (line 87). -/
def IMAGE_EXTENSIONS : List Str :=
  [".jpg".data, ".jpeg".data, ".png".data, ".tiff".data, ".tif".data,
   ".gif".data, ".bmp".data, ".webp".data]

/-- `SearchEngine.FILE_METADATA_EXTENSIONS` (lines 88-105). -/
def FILE_METADATA_EXTENSIONS : List Str :=
  [".pdf".data, ".docx".data, ".xlsx".data, ".pptx".data,
   ".odt".data, ".ods".data, ".odp".data,
   ".fdx".data, ".fountain".data, ".celtx".data,
   ".zip".data, ".epub".data,
   ".csv".data, ".json".data, ".xml".data,
   ".db".data, ".sqlite".data, ".sqlite3".data,
   ".rtf".data,
   ".mp3".data, ".flac".data, ".m4a".data, ".mp4".data, ".avi".data,
   ".mkv".data, ".mov".data, ".wmv".data, ".ogg".data, ".wma".data]

/-- `SearchEngine.ARCHIVE_EXTENSIONS` (line 107). -/
def ARCHIVE_EXTENSIONS : List Str := [".zip".data, ".epub".data]

/-- `_search_file` (lines 214-289): size ceiling first, then the extractor
dispatch in source order (archive, image metadata, file metadata,
metadata-mode exclusivity, binary hex, plain text); a file whose text/binary
open fails contributes nothing. -/
def searchFile (cfg : SearchConfig) (mat : Matcher) (path : Str)
    (n : FileNode) : List SearchMatch :=
  if cfg.max_search_file_size < n.size then []
  else if cfg.search_in_archives && ARCHIVE_EXTENSIONS.contains (extOf path) then
    searchArchive cfg mat path n
  else if cfg.search_metadata && IMAGE_EXTENSIONS.contains (extOf path) then
    metadataMatches path n.metadata mat
  else if cfg.search_file_metadata && FILE_METADATA_EXTENSIONS.contains (extOf path) then
    metadataMatches path n.metadata mat
  else if cfg.search_metadata || cfg.search_file_metadata then []
  else if cfg.hex_search then
    if n.readOk then searchBinary path n.bytes mat else []
  else if n.readOk then searchTextLines cfg mat path (readLinesOf n.bytes) else []

/-- Unescape an exclusion-pattern fragment: `\c` stands for the literal `c`,
a final unescaped `$` anchors the fragment to the end of the path.  This
interprets exactly the fragment language of the default exclusion list. -/
def unescapeFrag : Str → Str × Bool
  | [] => ([], false)
  | ['$'] => ([], true)
  | '\\' :: c :: rest => ((unescapeFrag rest).1.cons c, (unescapeFrag rest).2)
  | c :: rest => ((unescapeFrag rest).1.cons c, (unescapeFrag rest).2)

/-- `re.search(pattern, path)` for such a fragment: substring search, or a
suffix test when the fragment ends in `$`. -/
def reSearchLit (pat s : Str) : Bool :=
  if (unescapeFrag pat).2 then endsWithStr (unescapeFrag pat).1 s
  else containsSub (unescapeFrag pat).1 s

/-- `_is_excluded` (lines 206-212): normalize separators, then try every
exclusion pattern anywhere in the path. -/
def isExcluded (cfg : SearchConfig) (p : Str) : Bool :=
  cfg.exclude_patterns.any (fun pat => reSearchLit pat (normalizeSep p))

/-- `_is_network_path` (lines 760-763). -/
def isNetworkPath (p : Str) : Bool :=
  leadsWith ['\\', '\\'] p || leadsWith ['/', '/'] p

/-- One visit the walker performs: the path, the number of matches
accumulated before the visit, and whether it is a directory listing
(`true`) or a file extraction (`false`). -/
structure VisitEvent where
  path : Str
  pre : Nat
  isDir : Bool
deriving DecidableEq

/-- The walker's state: the accumulated matches and the visit log. -/
abbrev SAcc := List SearchMatch × List VisitEvent

/-- A pending unit of `os.walk` work: a file to extract (its joined path,
its basename, its node) or a directory listing to process. -/
inductive WTask where
  | wfile : Str → Str → FileNode → WTask
  | wdir : Str → List (Str × FSTree) → WTask

/-- Size of a tree (for termination measures). -/
def treeSize : FSTree → Nat
  | .file _ => 1
  | .dir es => 1 + entsSize es
where
  /-- Size of a directory's entries. -/
  entsSize : List (Str × FSTree) → Nat
  | [] => 0
  | (_, t) :: rest => 1 + treeSize t + entsSize rest

/-- Termination weight of one task. -/
def taskWeight : WTask → Nat
  | .wfile _ _ _ => 1
  | .wdir _ es => 1 + treeSize.entsSize es

/-- Termination weight of a worklist. -/
def tasksWeight : List WTask → Nat
  | [] => 0
  | t :: rest => taskWeight t + tasksWeight rest

/-- The file entries of a directory listing as extraction tasks, in order
(the `for file in files` loop, line 184). -/
def fileTasksOf (p : Str) : List (Str × FSTree) → List WTask
  | [] => []
  | (name, FSTree.file n) :: rest => WTask.wfile (joinPath p name) name n :: fileTasksOf p rest
  | (_, FSTree.dir _) :: rest => fileTasksOf p rest

/-- The subdirectory entries as listing tasks, pruned by the exclusion
filter before descent (line 182). -/
def dirTasksOf (cfg : SearchConfig) (p : Str) : List (Str × FSTree) → List WTask
  | [] => []
  | (name, FSTree.dir sub) :: rest =>
    if isExcluded cfg (joinPath p name) then dirTasksOf cfg p rest
    else WTask.wdir (joinPath p name) sub :: dirTasksOf cfg p rest
  | (_, FSTree.file _) :: rest => dirTasksOf cfg p rest

/-- The early-exit test (lines 178 and 186): a positive ceiling has been
reached. -/
def walkStop (cfg : SearchConfig) (acc : SAcc) : Bool :=
  0 < cfg.max_results && cfg.max_results ≤ acc.1.length

/-- The extension allow-list test (lines 171 and 196-198). -/
def extAllowed (cfg : SearchConfig) (name : Str) : Bool :=
  cfg.file_extensions.isEmpty || cfg.file_extensions.any (fun e => endsWithStr e name)

/-- Processing one file inside the walk (lines 189-202): skip excluded or
filtered files, otherwise extract and log the visit. -/
def fileStep (cfg : SearchConfig) (mat : Matcher) (path name : Str)
    (n : FileNode) (acc : SAcc) : SAcc :=
  if isExcluded cfg path then acc
  else if !extAllowed cfg name then acc
  else (acc.1 ++ searchFile cfg mat path n, acc.2 ++ [⟨path, acc.1.length, false⟩])

/-- The `os.walk` driver loop of `search` (lines 176-202), as a worklist in
top-down depth-first order: a directory listing is visited (logged), its
files queued first, its non-excluded subdirectories after them; a reached
ceiling stops all remaining work, exactly as the `break`s do (counts only
grow, so checking at every task equals breaking out of the generators). -/
def walkGo (cfg : SearchConfig) (mat : Matcher) : List WTask → SAcc → SAcc
  | [], acc => acc
  | t :: rest, acc =>
    if walkStop cfg acc then acc
    else
      match t with
      | WTask.wfile path name n => walkGo cfg mat rest (fileStep cfg mat path name n acc)
      | WTask.wdir path es =>
        walkGo cfg mat (fileTasksOf path es ++ (dirTasksOf cfg path es ++ rest))
          (acc.1, acc.2 ++ [⟨path, acc.1.length, true⟩])
termination_by ts _ => tasksWeight ts
decreasing_by
  all_goals simp_wf
  · simp only [tasksWeight, taskWeight]; omega
  · rename_i path
    have happ : ∀ (a b : List WTask),
        tasksWeight (a ++ b) = tasksWeight a + tasksWeight b := by
      intro a b
      induction a with
      | nil => simp [tasksWeight]
      | cons x xs ih =>
        simp only [List.cons_append, List.append_eq, tasksWeight, ih]
        omega
    have key : ∀ (p : Str) (es2 : List (Str × FSTree)),
        tasksWeight (fileTasksOf p es2) + tasksWeight (dirTasksOf cfg p es2) ≤
          treeSize.entsSize es2 := by
      intro p es2
      induction es2 with
      | nil => simp [fileTasksOf, dirTasksOf, tasksWeight, treeSize.entsSize]
      | cons e r ih =>
        obtain ⟨name, tt⟩ := e
        cases tt with
        | file nn =>
          simp only [fileTasksOf, dirTasksOf, tasksWeight, taskWeight, treeSize.entsSize, treeSize]
          omega
        | dir sub =>
          simp only [fileTasksOf, dirTasksOf, treeSize.entsSize, treeSize]
          split
          · omega
          · simp only [tasksWeight, taskWeight]
            omega
    have hk := key path es
    simp only [List.append_eq] at *
    simp only [happ, tasksWeight, taskWeight]
    omega

/-- `search` (lines 128-204), instrumented: besides the match list it
returns the log of every directory listing and file extraction performed.
The empty-pattern check comes first, then the network-reachability guard
(`netAcc` models the cached probe of `_check_network_path_accessible`),
then pattern compilation; a single-file root is filtered and extracted
directly, a directory root starts the walk at its listing. -/
def searchFull (compileRegex : Bool → Str → Option Matcher) (netAcc : Str → Bool)
    (cfg : SearchConfig) (rootPath : Str) (tree : FSTree) (pattern : Str) : SAcc :=
  if pattern.isEmpty then ([], [])
  else if isNetworkPath rootPath && !netAcc rootPath then ([], [])
  else
    match compilePattern compileRegex cfg pattern with
    | none => ([], [])
    | some mat =>
      match tree with
      | FSTree.file n =>
        if !isExcluded cfg rootPath && extAllowed cfg rootPath then
          (searchFile cfg mat rootPath n, [⟨rootPath, 0, false⟩])
        else ([], [])
      | FSTree.dir es => walkGo cfg mat [WTask.wdir rootPath es] ([], [])

/-- The match list `search` returns. -/
def search (compileRegex : Bool → Str → Option Matcher) (netAcc : Str → Bool)
    (cfg : SearchConfig) (rootPath : Str) (tree : FSTree) (pattern : Str) :
    List SearchMatch :=
  (searchFull compileRegex netAcc cfg rootPath tree pattern).1

/-- The largest number of matches a single file of the tree contributes
to an unbounded extraction (used to bound the ceiling overshoot). -/
def maxFileMatchesT (cfg : SearchConfig) (mat : Matcher) : Str → FSTree → Nat
  | p, FSTree.file n => (searchFile cfg mat p n).length
  | p, FSTree.dir es => maxFMList p es
where
  /-- The same maximum over a directory's entries. -/
  maxFMList : Str → List (Str × FSTree) → Nat
  | _, [] => 0
  | p, (name, t) :: rest =>
    max (maxFileMatchesT cfg mat (joinPath p name) t) (maxFMList p rest)

/-- Modelled from the claim's words (C7): the lines at indices
`i - context, ..., i - 1`, clamped to the start of the file, each
rstripped. -/
def ctxSpecBefore (lines : List Str) (i ctx : Nat) : List Str :=
  (List.range' (i - ctx) (i - (i - ctx))).map (fun j => rstripNl (lines.getD j []))

/-- Modelled from the claim's words (C7): the lines at indices
`i + 1, ..., i + context`, clamped to the end of the file, each
rstripped. -/
def ctxSpecAfter (lines : List Str) (i ctx : Nat) : List Str :=
  (List.range' (i + 1) (min lines.length (i + ctx + 1) - (i + 1))).map
    (fun j => rstripNl (lines.getD j []))

/-- Modelled from the claim's words (C3): the bytes at offsets
`off - 16, ..., off + 15`, clamped to the file bounds. -/
def hexWindowSpec (content : List Nat) (off : Nat) : List Nat :=
  (List.range' (off - 16) (min content.length (off + 16) - (off - 16))).map
    (fun j => content.getD j 0)

/-- Space-separated concatenation. -/
def joinSpace : List Str → Str
  | [] => []
  | x :: rest =>
    x ++ (match rest with | [] => [] | _ :: _ => ' ' :: joinSpace rest)

/-- Modelled from the claim's words (C3): the synthesized hex-dump line,
`"Offset "`, the offset in fixed-width (8-digit) lowercase hexadecimal,
`": "`, then the window's bytes as space-separated hex pairs. -/
def hexLineSpec (content : List Nat) (off : Nat) : Str :=
  "Offset ".data ++ pad8 (natToHex off) ++ ": ".data ++
    joinSpace ((hexWindowSpec content off).map byteHex)

/-- The match count one task can contribute in a single extraction. -/
def taskFM (cfg : SearchConfig) (mat : Matcher) : WTask → Nat
  | .wfile p _ n => (searchFile cfg mat p n).length
  | .wdir p es => maxFileMatchesT.maxFMList cfg mat p es

/-- The largest single-extraction contribution over a worklist. -/
def tasksFMmax (cfg : SearchConfig) (mat : Matcher) : List WTask → Nat
  | [] => 0
  | t :: rest => max (taskFM cfg mat t) (tasksFMmax cfg mat rest)

/-- A concrete ten-line file (as `readlines` yields it, newlines kept)
whose first and last lines contain the pattern `hit`. -/
def tenLines : List Str :=
  ["hit\n".data, "a\n".data, "b\n".data, "c\n".data, "d\n".data,
   "e\n".data, "f\n".data, "g\n".data, "h\n".data, "hit".data]

theorem leadsWithCi_length (ci : Bool) :
    ∀ (p s : Str), leadsWithCi ci p s = true → p.length ≤ s.length := by
  intro p
  induction p with
  | nil => intro s _; simp
  | cons a ps ih =>
    intro s h
    cases s with
    | nil => simp [leadsWithCi] at h
    | cons b ss =>
      simp only [leadsWithCi, Bool.and_eq_true] at h
      have := ih ss h.2
      simp only [List.length_cons]
      omega

theorem leadsWithCi_false_take :
    ∀ (p s : Str), leadsWithCi false p s = true → s.take p.length = p := by
  intro p
  induction p with
  | nil => intro s _; simp
  | cons a ps ih =>
    intro s h
    cases s with
    | nil => simp [leadsWithCi] at h
    | cons b ss =>
      simp only [leadsWithCi, foldCase, Bool.false_eq_true, if_false,
        Bool.and_eq_true, beq_iff_eq] at h
      simp only [List.length_cons, List.take_succ_cons, ih ss h.2, h.1]

theorem litFA_mem (ci : Bool) (pat : Str) :
    ∀ (s : Str) (i skip : Nat) (sp : Nat × Nat), sp ∈ litFA ci pat s i skip →
      i ≤ sp.1 ∧ sp.2 = sp.1 + pat.length ∧ sp.1 - i + pat.length ≤ s.length ∧
        leadsWithCi ci pat (s.drop (sp.1 - i)) = true := by
  intro s
  induction s with
  | nil =>
    intro i skip sp h
    by_cases hp : pat = []
    · simp only [litFA, hp, List.isEmpty_nil, if_pos] at h
      simp only [List.mem_singleton] at h
      subst h
      simp [hp, leadsWithCi]
    · have : pat.isEmpty = false := by simpa [List.isEmpty_iff] using hp
      simp [litFA, this] at h
  | cons c t ih =>
    intro i skip sp h
    cases skip with
    | succ k =>
      simp only [litFA] at h
      obtain ⟨h1, h2, h3, h4⟩ := ih (i + 1) k sp h
      refine ⟨by omega, h2, by simp only [List.length_cons]; omega, ?_⟩
      have he : sp.1 - i = (sp.1 - (i + 1)) + 1 := by omega
      rw [he, List.drop_succ_cons]
      exact h4
    | zero =>
      by_cases hp : pat = []
      · have hpe : pat.isEmpty = true := by simp [hp]
        simp only [litFA, hpe, if_pos, List.mem_cons] at h
        rcases h with h | h
        · subst h
          simp [hp, leadsWithCi]
        · obtain ⟨h1, h2, h3, h4⟩ := ih (i + 1) 0 sp h
          refine ⟨by omega, h2, by simp only [List.length_cons]; omega, ?_⟩
          have he : sp.1 - i = (sp.1 - (i + 1)) + 1 := by omega
          rw [he, List.drop_succ_cons]
          exact h4
      · have hpe : pat.isEmpty = false := by simpa [List.isEmpty_iff] using hp
        simp only [litFA, hpe, Bool.false_eq_true, if_false] at h
        by_cases hl : leadsWithCi ci pat (c :: t) = true
        · rw [if_pos hl, List.mem_cons] at h
          rcases h with h | h
          · subst h
            refine ⟨le_rfl, rfl, ?_, ?_⟩
            · have := leadsWithCi_length ci pat (c :: t) hl
              simp only [List.length_cons] at this ⊢
              omega
            · simpa using hl
          · obtain ⟨h1, h2, h3, h4⟩ := ih (i + 1) (pat.length - 1) sp h
            refine ⟨by omega, h2, by simp only [List.length_cons]; omega, ?_⟩
            have he : sp.1 - i = (sp.1 - (i + 1)) + 1 := by omega
            rw [he, List.drop_succ_cons]
            exact h4
        · rw [if_neg hl] at h
          obtain ⟨h1, h2, h3, h4⟩ := ih (i + 1) 0 sp h
          refine ⟨by omega, h2, by simp only [List.length_cons]; omega, ?_⟩
          have he : sp.1 - i = (sp.1 - (i + 1)) + 1 := by omega
          rw [he, List.drop_succ_cons]
          exact h4

theorem litFinditer_ok (ci : Bool) (pat : Str) :
    MatcherOK (fun s => litFinditer ci pat s) := by
  intro s sp h
  obtain ⟨h1, h2, h3, _⟩ := litFA_mem ci pat s 0 0 sp h
  omega

theorem wordFA_mem (ci : Bool) (pat s : Str) :
    ∀ (d i : Nat), s.length + 1 - i ≤ d → ∀ sp, sp ∈ wordFA ci pat s i →
      sp.1 ≤ sp.2 ∧ sp.2 ≤ s.length := by
  intro d
  induction d with
  | zero =>
    intro i hd sp hsp
    rw [wordFA, if_pos (by omega)] at hsp
    simp at hsp
  | succ k ih =>
    intro i hd sp hsp
    rw [wordFA] at hsp
    by_cases hgt : s.length < i
    · rw [if_pos hgt] at hsp; simp at hsp
    · rw [if_neg hgt] at hsp
      by_cases hp : pat = []
      · rw [dif_pos hp] at hsp
        simp only [List.mem_append] at hsp
        rcases hsp with hsp | hsp
        · by_cases hb : boundaryAt s i = true
          · rw [if_pos hb] at hsp
            simp only [List.mem_singleton] at hsp
            subst hsp
            exact ⟨le_rfl, by omega⟩
          · rw [if_neg hb] at hsp; simp at hsp
        · by_cases hlt : i < s.length
          · rw [if_pos hlt] at hsp
            exact ih (i + 1) (by omega) sp hsp
          · rw [if_neg hlt] at hsp; simp at hsp
      · rw [dif_neg hp] at hsp
        by_cases hl : (leadsWithCi ci pat (s.drop i) && boundaryAt s i &&
            boundaryAt s (i + pat.length)) = true
        · rw [if_pos hl] at hsp
          simp only [Bool.and_eq_true] at hl
          have hlen := leadsWithCi_length ci pat (s.drop i) hl.1.1
          simp only [List.length_drop] at hlen
          simp only [List.mem_cons] at hsp
          rcases hsp with hsp | hsp
          · subst hsp
            constructor
            · simp
            · simp only
              omega
          · by_cases hlt : i < s.length
            · rw [if_pos hlt] at hsp
              have hp0 : 0 < pat.length := List.length_pos.mpr hp
              exact ih (i + pat.length) (by omega) sp hsp
            · rw [if_neg hlt] at hsp; simp at hsp
        · rw [if_neg hl] at hsp
          by_cases hlt : i < s.length
          · rw [if_pos hlt] at hsp
            exact ih (i + 1) (by omega) sp hsp
          · rw [if_neg hlt] at hsp; simp at hsp

theorem wordFinditer_ok (ci : Bool) (pat : Str) :
    MatcherOK (fun s => wordFinditer ci pat s) := by
  intro s sp h
  exact wordFA_mem ci pat s (s.length + 1) 0 (by omega) sp h

theorem utf8Go_ascii :
    ∀ (fuel : Nat) (l : List Nat), l.length ≤ fuel → (∀ b ∈ l, b < 128) →
      utf8Go fuel l = l.map Char.ofNat := by
  intro fuel
  induction fuel with
  | zero =>
    intro l hl _
    cases l with
    | nil => rfl
    | cons b rest => simp at hl
  | succ f ih =>
    intro l hl hb
    cases l with
    | nil => rfl
    | cons b rest =>
      have hb0 : b < 128 := hb b (by simp)
      simp only [utf8Go, if_pos hb0, List.map_cons]
      rw [ih rest (by simp at hl; omega) (fun x hx => hb x (by simp [hx]))]

theorem utf8DecodeIgnore_ascii (l : List Nat) (hb : ∀ b ∈ l, b < 128) :
    utf8DecodeIgnore l = l.map Char.ofNat :=
  utf8Go_ascii l.length l le_rfl hb

theorem char_toNat_ofNat (b : Nat) (h : b < 128) : (Char.ofNat b).toNat = b := by
  have hv : Nat.isValidChar b := Or.inl (by omega)
  rw [Char.ofNat, dif_pos hv]
  show (UInt32.ofNat' b _).toNat = b
  simp [UInt32.ofNat', UInt32.toNat]

theorem dropTake_eq_range' {α : Type} (d : α) :
    ∀ (k a : Nat) (l : List α), a + k ≤ l.length →
      (l.drop a).take k = (List.range' a k).map (fun j => l.getD j d) := by
  intro k
  induction k with
  | zero => intro a l _; simp
  | succ n ih =>
    intro a l h
    have ha : a < l.length := by omega
    rw [List.drop_eq_getElem_cons ha, List.take_succ_cons, List.range'_succ a n 1,
      List.map_cons]
    congr 1
    · exact (List.getD_eq_getElem l d ha).symm
    · exact ih (a + 1) l (by omega)

theorem hexSpaced_eq_joinSpace :
    ∀ (bs : List Nat), hexSpaced bs = joinSpace (bs.map byteHex) := by
  intro bs
  induction bs with
  | nil => rfl
  | cons b rest ih =>
    cases rest with
    | nil => rfl
    | cons b2 r2 =>
      show byteHex b ++ ' ' :: hexSpaced (b2 :: r2) =
        byteHex b ++ ' ' :: joinSpace (List.map byteHex (b2 :: r2))
      rw [ih]

theorem ctxSlice_length (lines : List Str) (a b : Nat) :
    (ctxSlice lines a b).length = min (b - a) (lines.length - a) := by
  simp [ctxSlice]

theorem ctxBefore_eq_spec (lines : List Str) (i ctx : Nat) (hi : i < lines.length) :
    (if 0 < ctx then ctxSlice lines (i - ctx) i else []) = ctxSpecBefore lines i ctx := by
  by_cases h : 0 < ctx
  · rw [if_pos h]
    unfold ctxSlice ctxSpecBefore
    rw [dropTake_eq_range' [] (i - (i - ctx)) (i - ctx) lines (by omega), List.map_map]
    rfl
  · rw [if_neg h]
    have hc : ctx = 0 := by omega
    subst hc
    simp [ctxSpecBefore]

theorem ctxAfter_eq_spec (lines : List Str) (i ctx : Nat) (hi : i < lines.length) :
    (if 0 < ctx then ctxSlice lines (i + 1) (min lines.length (i + ctx + 1)) else []) =
      ctxSpecAfter lines i ctx := by
  by_cases h : 0 < ctx
  · rw [if_pos h]
    unfold ctxSlice ctxSpecAfter
    rw [dropTake_eq_range' [] (min lines.length (i + ctx + 1) - (i + 1)) (i + 1) lines
      (by omega), List.map_map]
    rfl
  · rw [if_neg h]
    have hc : ctx = 0 := by omega
    subst hc
    have : min lines.length (i + 0 + 1) - (i + 1) = 0 := by omega
    simp [ctxSpecAfter, this]

theorem lineMatches_mem (cfg : SearchConfig) (mat : Matcher) (path : Str)
    (lines : List Str) (i : Nat) (line : Str) (m : SearchMatch)
    (hm : m ∈ lineMatches cfg mat path lines i line) :
    ∃ sp, sp ∈ mat line ∧ m.file_path = path ∧ m.line_number = i + 1 ∧
      m.line_content = rstripNl line ∧ m.match_start = sp.1 ∧ m.match_end = sp.2 ∧
      m.context_before =
        (if 0 < cfg.context_lines then ctxSlice lines (i - cfg.context_lines) i else []) ∧
      m.context_after =
        (if 0 < cfg.context_lines then
          ctxSlice lines (i + 1) (min lines.length (i + cfg.context_lines + 1)) else []) := by
  simp only [lineMatches, List.mem_map] at hm
  obtain ⟨sp, hsp, hm⟩ := hm
  subst hm
  exact ⟨sp, hsp, rfl, rfl, rfl, rfl, rfl, rfl, rfl⟩

theorem lineMatches_mk (cfg : SearchConfig) (mat : Matcher) (path : Str)
    (lines : List Str) (i : Nat) (line : Str) (sp : Nat × Nat)
    (hsp : sp ∈ mat line) :
    ∃ m ∈ lineMatches cfg mat path lines i line,
      m.file_path = path ∧ m.line_number = i + 1 ∧
      m.match_start = sp.1 ∧ m.match_end = sp.2 := by
  refine ⟨_, List.mem_map_of_mem _ hsp, rfl, rfl, rfl, rfl⟩

theorem textGo_mem (cfg : SearchConfig) (mat : Matcher) (path : Str) (all : List Str) :
    ∀ (rest : List Str) (i : Nat) (m : SearchMatch),
      m ∈ textGo cfg mat path all rest i →
      ∃ j, j < rest.length ∧ m ∈ lineMatches cfg mat path all (i + j) (rest.getD j []) := by
  intro rest
  induction rest with
  | nil => intro i m hm; simp [textGo] at hm
  | cons l t ih =>
    intro i m hm
    simp only [textGo, List.mem_append] at hm
    rcases hm with hm | hm
    · exact ⟨0, by simp, by simpa using hm⟩
    · obtain ⟨j, hj, hmem⟩ := ih (i + 1) m hm
      refine ⟨j + 1, by simp; omega, ?_⟩
      have : i + (j + 1) = i + 1 + j := by omega
      rw [this]
      simpa using hmem

theorem textGo_mk (cfg : SearchConfig) (mat : Matcher) (path : Str) (all : List Str) :
    ∀ (rest : List Str) (i j : Nat) (sp : Nat × Nat),
      j < rest.length → sp ∈ mat (rest.getD j []) →
      ∃ m ∈ textGo cfg mat path all rest i,
        m.file_path = path ∧ m.line_number = i + j + 1 ∧
        m.match_start = sp.1 ∧ m.match_end = sp.2 := by
  intro rest
  induction rest with
  | nil => intro i j sp hj _; simp at hj
  | cons l t ih =>
    intro i j sp hj hsp
    cases j with
    | zero =>
      simp only [List.getD_cons_zero] at hsp
      obtain ⟨m, hm, hfields⟩ := lineMatches_mk cfg mat path all i l sp hsp
      exact ⟨m, by simp [textGo, hm], hfields⟩
    | succ j0 =>
      simp only [List.getD_cons_succ] at hsp
      obtain ⟨m, hm, h1, h2, h3, h4⟩ := ih (i + 1) j0 sp (by simp at hj; omega) hsp
      refine ⟨m, by simp [textGo, hm], h1, by omega, h3, h4⟩

theorem metaGo_mem (path : Str) (mat : Matcher) :
    ∀ (md : List (Str × Str)) (idx : Nat) (m : SearchMatch),
      m ∈ metaGo path mat md idx →
      m.file_path = path ∧ m.context_before = [] ∧ m.context_after = [] ∧
      ∃ sp line, sp ∈ mat line ∧ m.match_start = sp.1 ∧ m.match_end = sp.2 ∧
        m.line_content = line := by
  intro md
  induction md with
  | nil => intro idx m hm; simp [metaGo] at hm
  | cons kv rest ih =>
    intro idx m hm
    obtain ⟨k, v⟩ := kv
    simp only [metaGo, List.mem_append, List.mem_map] at hm
    rcases hm with ⟨sp, hsp, hm⟩ | hm
    · subst hm
      exact ⟨rfl, rfl, rfl, sp, _, hsp, rfl, rfl, rfl⟩
    · exact ih (idx + 1) m hm

theorem searchBinary_mem (path : Str) (content : List Nat) (mat : Matcher)
    (m : SearchMatch) (hm : m ∈ searchBinary path content mat) :
    ∃ sp, sp ∈ mat (utf8DecodeIgnore content) ∧ m.file_path = path ∧
      m.line_number = sp.1 ∧ m.match_start = sp.1 ∧ m.match_end = sp.2 ∧
      m.context_before = [] ∧ m.context_after = [] ∧
      m.line_content = "Offset ".data ++ pad8 (natToHex sp.1) ++ ": ".data ++
        hexSpaced ((content.drop (sp.1 - 16)).take
          (min content.length (sp.1 + 16) - (sp.1 - 16))) := by
  simp only [searchBinary, List.mem_map] at hm
  obtain ⟨sp, hsp, hm⟩ := hm
  subst hm
  exact ⟨sp, hsp, rfl, rfl, rfl, rfl, rfl, rfl, rfl⟩

theorem archGo_mem (cfg : SearchConfig) (mat : Matcher) (path : Str) :
    ∀ (members : List ZipMember) (m : SearchMatch),
      m ∈ archGo cfg mat path members →
      ∃ mem ∈ members, m ∈ searchArchiveMember cfg mat path mem := by
  intro members
  induction members with
  | nil => intro m hm; simp [archGo] at hm
  | cons mem rest ih =>
    intro m hm
    simp only [archGo, List.mem_append] at hm
    rcases hm with hm | hm
    · split at hm
      · simp at hm
      · split at hm
        · simp at hm
        · split at hm
          · simp at hm
          · exact ⟨mem, by simp, hm⟩
    · obtain ⟨mem2, hmem2, hm2⟩ := ih m hm
      exact ⟨mem2, by simp [hmem2], hm2⟩

theorem archGo_mk (cfg : SearchConfig) (mat : Matcher) (path : Str) :
    ∀ (members : List ZipMember) (mem : ZipMember), mem ∈ members →
      endsWithStr "/".data mem.name = false →
      mem.fileSize ≤ cfg.max_search_file_size →
      mem.readOk = true →
      ∀ m ∈ searchArchiveMember cfg mat path mem, m ∈ archGo cfg mat path members := by
  intro members
  induction members with
  | nil => intro mem hmem; simp at hmem
  | cons mh rest ih =>
    intro mem hmem hnd hsz hro m hm
    simp only [List.mem_cons] at hmem
    simp only [archGo, List.mem_append]
    rcases hmem with hmem | hmem
    · subst hmem
      left
      rw [if_neg (by simp [hnd]), if_neg (by omega), if_neg (by simp [hro])]
      exact hm
    · right
      exact ih mem hmem hnd hsz hro m hm

theorem walkGo_nil (cfg : SearchConfig) (mat : Matcher) (acc : SAcc) :
    walkGo cfg mat [] acc = acc := by
  rw [walkGo]

theorem walkGo_file (cfg : SearchConfig) (mat : Matcher) (p nm : Str) (n : FileNode)
    (rest : List WTask) (acc : SAcc) :
    walkGo cfg mat (WTask.wfile p nm n :: rest) acc =
      if walkStop cfg acc then acc
      else walkGo cfg mat rest (fileStep cfg mat p nm n acc) := by
  rw [walkGo]

theorem walkGo_dir (cfg : SearchConfig) (mat : Matcher) (p : Str)
    (es : List (Str × FSTree)) (rest : List WTask) (acc : SAcc) :
    walkGo cfg mat (WTask.wdir p es :: rest) acc =
      if walkStop cfg acc then acc
      else walkGo cfg mat (fileTasksOf p es ++ (dirTasksOf cfg p es ++ rest))
        (acc.1, acc.2 ++ [⟨p, acc.1.length, true⟩]) := by
  rw [walkGo]

theorem isExcluded_congr (cfg₁ cfg₂ : SearchConfig)
    (h : cfg₁.exclude_patterns = cfg₂.exclude_patterns) (p : Str) :
    isExcluded cfg₁ p = isExcluded cfg₂ p := by
  simp only [isExcluded, h]

theorem extAllowed_congr (cfg₁ cfg₂ : SearchConfig)
    (h : cfg₁.file_extensions = cfg₂.file_extensions) (name : Str) :
    extAllowed cfg₁ name = extAllowed cfg₂ name := by
  simp only [extAllowed, h]

theorem walkStop_congr (cfg₁ cfg₂ : SearchConfig)
    (h : cfg₁.max_results = cfg₂.max_results) (acc : SAcc) :
    walkStop cfg₁ acc = walkStop cfg₂ acc := by
  simp only [walkStop, h]

theorem lineMatches_congr (cfg₁ cfg₂ : SearchConfig)
    (h : cfg₁.context_lines = cfg₂.context_lines) (mat : Matcher) (path : Str)
    (lines : List Str) (i : Nat) (line : Str) :
    lineMatches cfg₁ mat path lines i line = lineMatches cfg₂ mat path lines i line := by
  simp only [lineMatches, h]

theorem textGo_congr (cfg₁ cfg₂ : SearchConfig)
    (h : cfg₁.context_lines = cfg₂.context_lines) (mat : Matcher) (path : Str)
    (all : List Str) :
    ∀ (rest : List Str) (i : Nat),
      textGo cfg₁ mat path all rest i = textGo cfg₂ mat path all rest i := by
  intro rest
  induction rest with
  | nil => intro i; rfl
  | cons l t ih =>
    intro i
    simp only [textGo, ih (i + 1), lineMatches_congr cfg₁ cfg₂ h]

theorem searchTextLines_congr (cfg₁ cfg₂ : SearchConfig)
    (h : cfg₁.context_lines = cfg₂.context_lines) (mat : Matcher) (path : Str)
    (lines : List Str) :
    searchTextLines cfg₁ mat path lines = searchTextLines cfg₂ mat path lines :=
  textGo_congr cfg₁ cfg₂ h mat path lines lines 0

theorem searchArchiveMember_congr (cfg₁ cfg₂ : SearchConfig)
    (h : cfg₁.context_lines = cfg₂.context_lines) (mat : Matcher) (path : Str)
    (mem : ZipMember) :
    searchArchiveMember cfg₁ mat path mem = searchArchiveMember cfg₂ mat path mem := by
  simp only [searchArchiveMember]
  rw [textGo_congr cfg₁ cfg₂ h]

theorem archGo_congr (cfg₁ cfg₂ : SearchConfig)
    (hcl : cfg₁.context_lines = cfg₂.context_lines)
    (hms : cfg₁.max_search_file_size = cfg₂.max_search_file_size)
    (mat : Matcher) (path : Str) :
    ∀ (members : List ZipMember),
      archGo cfg₁ mat path members = archGo cfg₂ mat path members := by
  intro members
  induction members with
  | nil => rfl
  | cons mem rest ih =>
    simp only [archGo, ih, hms, searchArchiveMember_congr cfg₁ cfg₂ hcl]

theorem searchArchive_congr (cfg₁ cfg₂ : SearchConfig)
    (hcl : cfg₁.context_lines = cfg₂.context_lines)
    (hms : cfg₁.max_search_file_size = cfg₂.max_search_file_size)
    (mat : Matcher) (path : Str) (n : FileNode) :
    searchArchive cfg₁ mat path n = searchArchive cfg₂ mat path n := by
  simp only [searchArchive, archGo_congr cfg₁ cfg₂ hcl hms]

theorem searchFile_congr (cfg₁ cfg₂ : SearchConfig)
    (hms : cfg₁.max_search_file_size = cfg₂.max_search_file_size)
    (har : cfg₁.search_in_archives = cfg₂.search_in_archives)
    (hsm : cfg₁.search_metadata = cfg₂.search_metadata)
    (hsfm : cfg₁.search_file_metadata = cfg₂.search_file_metadata)
    (hhx : cfg₁.hex_search = cfg₂.hex_search)
    (hcl : cfg₁.context_lines = cfg₂.context_lines)
    (mat : Matcher) (path : Str) (n : FileNode) :
    searchFile cfg₁ mat path n = searchFile cfg₂ mat path n := by
  simp only [searchFile, hms, har, hsm, hsfm, hhx,
    searchArchive_congr cfg₁ cfg₂ hcl hms, searchTextLines_congr cfg₁ cfg₂ hcl]

theorem fileStep_congr (cfg₁ cfg₂ : SearchConfig)
    (hex : cfg₁.exclude_patterns = cfg₂.exclude_patterns)
    (hfe : cfg₁.file_extensions = cfg₂.file_extensions)
    (hms : cfg₁.max_search_file_size = cfg₂.max_search_file_size)
    (har : cfg₁.search_in_archives = cfg₂.search_in_archives)
    (hsm : cfg₁.search_metadata = cfg₂.search_metadata)
    (hsfm : cfg₁.search_file_metadata = cfg₂.search_file_metadata)
    (hhx : cfg₁.hex_search = cfg₂.hex_search)
    (hcl : cfg₁.context_lines = cfg₂.context_lines)
    (mat : Matcher) (path nm : Str) (n : FileNode) (acc : SAcc) :
    fileStep cfg₁ mat path nm n acc = fileStep cfg₂ mat path nm n acc := by
  simp only [fileStep, isExcluded_congr cfg₁ cfg₂ hex, extAllowed_congr cfg₁ cfg₂ hfe,
    searchFile_congr cfg₁ cfg₂ hms har hsm hsfm hhx hcl]

theorem dirTasksOf_congr (cfg₁ cfg₂ : SearchConfig)
    (hex : cfg₁.exclude_patterns = cfg₂.exclude_patterns) (p : Str) :
    ∀ (es : List (Str × FSTree)), dirTasksOf cfg₁ p es = dirTasksOf cfg₂ p es := by
  intro es
  induction es with
  | nil => rfl
  | cons e rest ih =>
    obtain ⟨name, t⟩ := e
    cases t with
    | file n => simp only [dirTasksOf, ih]
    | dir sub => simp only [dirTasksOf, ih, isExcluded_congr cfg₁ cfg₂ hex]

theorem walkGo_congr (cfg₁ cfg₂ : SearchConfig) (mat : Matcher)
    (hex : cfg₁.exclude_patterns = cfg₂.exclude_patterns)
    (hfe : cfg₁.file_extensions = cfg₂.file_extensions)
    (hms : cfg₁.max_search_file_size = cfg₂.max_search_file_size)
    (har : cfg₁.search_in_archives = cfg₂.search_in_archives)
    (hsm : cfg₁.search_metadata = cfg₂.search_metadata)
    (hsfm : cfg₁.search_file_metadata = cfg₂.search_file_metadata)
    (hhx : cfg₁.hex_search = cfg₂.hex_search)
    (hcl : cfg₁.context_lines = cfg₂.context_lines)
    (hmr : cfg₁.max_results = cfg₂.max_results) :
    ∀ (ts : List WTask) (acc : SAcc), walkGo cfg₁ mat ts acc = walkGo cfg₂ mat ts acc := by
  intro ts acc
  induction ts, acc using walkGo.induct cfg₁ mat with
  | case1 acc => rw [walkGo_nil, walkGo_nil]
  | case2 t rest acc hstop =>
    have hstop₂ : walkStop cfg₂ acc = true := by
      rw [← walkStop_congr cfg₁ cfg₂ hmr]; exact hstop
    cases t with
    | wfile p nm n => rw [walkGo_file, walkGo_file, if_pos hstop, if_pos hstop₂]
    | wdir p es => rw [walkGo_dir, walkGo_dir, if_pos hstop, if_pos hstop₂]
  | case3 rest acc hstop p nm n ih =>
    have hstop₂ : walkStop cfg₂ acc = false := by
      rw [← walkStop_congr cfg₁ cfg₂ hmr]; exact Bool.not_eq_true _ ▸ (by simpa using hstop)
    rw [walkGo_file, walkGo_file, if_neg hstop, if_neg (by simp [hstop₂])]
    rw [← fileStep_congr cfg₁ cfg₂ hex hfe hms har hsm hsfm hhx hcl mat p nm n acc]
    exact ih
  | case4 rest acc hstop p es ih =>
    have hstop₂ : walkStop cfg₂ acc = false := by
      rw [← walkStop_congr cfg₁ cfg₂ hmr]; exact Bool.not_eq_true _ ▸ (by simpa using hstop)
    rw [walkGo_dir, walkGo_dir, if_neg hstop, if_neg (by simp [hstop₂])]
    rw [← dirTasksOf_congr cfg₁ cfg₂ hex p es]
    exact ih

/-- Claim C10: calling `search` with an empty pattern returns the empty
result list immediately: for every compile function, reachability oracle,
configuration, root and filesystem, the result is empty and the visit log is
empty (no matcher is consulted, no file or directory is visited). -/
theorem empty_pattern_returns_nothing (cr : Bool → Str → Option Matcher)
    (na : Str → Bool) (cfg : SearchConfig) (rootPath : Str) (tree : FSTree) :
    searchFull cr na cfg rootPath tree [] = ([], []) := rfl

/-- Claim C4: when regex mode is enabled and the pattern does not compile,
`search` returns the empty result list (and visits nothing): never a partial
result, and, the function being total, never an exception. -/
theorem invalid_regex_empty_result (cr : Bool → Str → Option Matcher)
    (na : Str → Bool) (cfg : SearchConfig) (rootPath : Str) (tree : FSTree)
    (pattern : Str) (hur : cfg.use_regex = true)
    (hfail : cr cfg.case_sensitive pattern = none) :
    searchFull cr na cfg rootPath tree pattern = ([], []) := by
  simp only [searchFull, compilePattern, hur, if_true, hfail]
  split
  · rfl
  · split
    · rfl
    · rfl

/-- Witness for C4 at a concrete input: a compile function that rejects
every pattern yields the empty result on a concrete tree. -/
theorem invalid_regex_empty_result_witness :
    searchFull (fun _ _ => none) (fun _ => true) { use_regex := true }
      "r".data (FSTree.dir []) "a".data = ([], []) :=
  invalid_regex_empty_result _ _ _ _ _ _ rfl rfl

/-- Claim C9: with regex mode enabled the whole-word flag has no effect:
the full search result (matches and visit log) is identical for any two
values of the flag, all else equal. -/
theorem whole_word_noop_in_regex_mode (cr : Bool → Str → Option Matcher)
    (na : Str → Bool) (cfg : SearchConfig) (rootPath : Str) (tree : FSTree)
    (pattern : Str) (b₁ b₂ : Bool) :
    searchFull cr na {cfg with use_regex := true, whole_word := b₁} rootPath tree pattern =
      searchFull cr na {cfg with use_regex := true, whole_word := b₂} rootPath tree pattern := by
  simp only [searchFull]
  by_cases h1 : pattern.isEmpty = true
  · simp [h1]
  · simp only [h1, Bool.false_eq_true, if_false]
    by_cases h2 : (isNetworkPath rootPath && !na rootPath) = true
    · simp [h2]
    · simp only [h2, Bool.false_eq_true, if_false]
      have hc : compilePattern cr {cfg with use_regex := true, whole_word := b₁} pattern =
          compilePattern cr {cfg with use_regex := true, whole_word := b₂} pattern := rfl
      rw [hc]
      cases hm : compilePattern cr {cfg with use_regex := true, whole_word := b₂} pattern with
      | none => rfl
      | some mat =>
        cases tree with
        | file n =>
          have hse : searchFile {cfg with use_regex := true, whole_word := b₁} mat rootPath n =
              searchFile {cfg with use_regex := true, whole_word := b₂} mat rootPath n :=
            searchFile_congr {cfg with use_regex := true, whole_word := b₁}
              {cfg with use_regex := true, whole_word := b₂} rfl rfl rfl rfl rfl rfl
              mat rootPath n
          have hie : isExcluded {cfg with use_regex := true, whole_word := b₁} rootPath =
              isExcluded {cfg with use_regex := true, whole_word := b₂} rootPath := rfl
          have hea : extAllowed {cfg with use_regex := true, whole_word := b₁} rootPath =
              extAllowed {cfg with use_regex := true, whole_word := b₂} rootPath := rfl
          simp only [hie, hea, hse]
        | dir es =>
          exact walkGo_congr {cfg with use_regex := true, whole_word := b₁}
            {cfg with use_regex := true, whole_word := b₂} mat rfl rfl rfl rfl rfl rfl rfl
            rfl rfl [WTask.wdir rootPath es] ([], [])

theorem fileTasksOf_no_wdir (p : Str) :
    ∀ (es : List (Str × FSTree)) (p2 : Str) (es2 : List (Str × FSTree)),
      WTask.wdir p2 es2 ∈ fileTasksOf p es → False := by
  intro es
  induction es with
  | nil => intro p2 es2 h; simp [fileTasksOf] at h
  | cons e rest ih =>
    intro p2 es2 h
    obtain ⟨name, t⟩ := e
    cases t with
    | file n =>
      simp only [fileTasksOf, List.mem_cons] at h
      rcases h with h | h
      · exact WTask.noConfusion h
      · exact ih p2 es2 h
    | dir sub => exact ih p2 es2 h

theorem dirTasksOf_mem_excl (cfg : SearchConfig) (p : Str) :
    ∀ (es : List (Str × FSTree)) (p2 : Str) (es2 : List (Str × FSTree)),
      WTask.wdir p2 es2 ∈ dirTasksOf cfg p es → isExcluded cfg p2 = false := by
  intro es
  induction es with
  | nil => intro p2 es2 h; simp [dirTasksOf] at h
  | cons e rest ih =>
    intro p2 es2 h
    obtain ⟨name, t⟩ := e
    cases t with
    | file n => exact ih p2 es2 h
    | dir sub =>
      simp only [dirTasksOf] at h
      by_cases hex : isExcluded cfg (joinPath p name) = true
      · rw [if_pos hex] at h
        exact ih p2 es2 h
      · rw [if_neg hex] at h
        simp only [List.mem_cons] at h
        rcases h with h | h
        · cases h
          exact Bool.not_eq_true _ ▸ hex
        · exact ih p2 es2 h

theorem walkGo_prov (cfg : SearchConfig) (mat : Matcher) :
    ∀ (ts : List WTask) (acc : SAcc) (m : SearchMatch),
      m ∈ (walkGo cfg mat ts acc).1 →
      m ∈ acc.1 ∨ ∃ p n, isExcluded cfg p = false ∧ m ∈ searchFile cfg mat p n := by
  intro ts acc
  induction ts, acc using walkGo.induct cfg mat with
  | case1 acc => intro m hm; rw [walkGo_nil] at hm; exact Or.inl hm
  | case2 t rest acc hstop =>
    intro m hm
    cases t with
    | wfile p nm n => rw [walkGo_file, if_pos hstop] at hm; exact Or.inl hm
    | wdir p es => rw [walkGo_dir, if_pos hstop] at hm; exact Or.inl hm
  | case3 rest acc hstop p nm n ih =>
    intro m hm
    rw [walkGo_file, if_neg hstop] at hm
    rcases ih m hm with hacc | hrest
    · simp only [fileStep] at hacc
      split at hacc
      · exact Or.inl hacc
      · split at hacc
        · exact Or.inl hacc
        · simp only [List.mem_append] at hacc
          rcases hacc with h | h
          · exact Or.inl h
          · rename_i hne _
            exact Or.inr ⟨p, n, Bool.not_eq_true _ ▸ hne, h⟩
    · exact Or.inr hrest
  | case4 rest acc hstop p es ih =>
    intro m hm
    rw [walkGo_dir, if_neg hstop] at hm
    rcases ih m hm with hacc | hrest
    · exact Or.inl hacc
    · exact Or.inr hrest

theorem walkGo_mono (cfg : SearchConfig) (mat : Matcher) :
    ∀ (ts : List WTask) (acc : SAcc), acc.1.length ≤ (walkGo cfg mat ts acc).1.length := by
  intro ts acc
  induction ts, acc using walkGo.induct cfg mat with
  | case1 acc => rw [walkGo_nil]
  | case2 t rest acc hstop =>
    cases t with
    | wfile p nm n => rw [walkGo_file, if_pos hstop]
    | wdir p es => rw [walkGo_dir, if_pos hstop]
  | case3 rest acc hstop p nm n ih =>
    rw [walkGo_file, if_neg hstop]
    refine le_trans ?_ ih
    simp only [fileStep]
    split
    · exact le_rfl
    · split
      · exact le_rfl
      · simp
  | case4 rest acc hstop p es ih =>
    rw [walkGo_dir, if_neg hstop]
    exact ih

theorem walkGo_events (cfg : SearchConfig) (mat : Matcher) (Q : Str → Prop)
    (hQ : ∀ p, isExcluded cfg p = false → Q p) :
    ∀ (ts : List WTask) (acc : SAcc),
      (∀ p es, WTask.wdir p es ∈ ts → Q p) →
      (∀ e ∈ acc.2, (e.isDir = true → Q e.path) ∧
        (e.isDir = false → isExcluded cfg e.path = false) ∧
        (0 < cfg.max_results → e.pre < cfg.max_results)) →
      ∀ e ∈ (walkGo cfg mat ts acc).2,
        (e.isDir = true → Q e.path) ∧
        (e.isDir = false → isExcluded cfg e.path = false) ∧
        (0 < cfg.max_results → e.pre < cfg.max_results) := by
  intro ts acc
  induction ts, acc using walkGo.induct cfg mat with
  | case1 acc =>
    intro _ hacc e he
    rw [walkGo_nil] at he
    exact hacc e he
  | case2 t rest acc hstop =>
    intro _ hacc e he
    cases t with
    | wfile p nm n => rw [walkGo_file, if_pos hstop] at he; exact hacc e he
    | wdir p es => rw [walkGo_dir, if_pos hstop] at he; exact hacc e he
  | case3 rest acc hstop p nm n ih =>
    intro hts hacc e he
    rw [walkGo_file, if_neg hstop] at he
    refine ih (fun p2 es2 hmem => hts p2 es2 (List.mem_cons_of_mem _ hmem)) ?_ e he
    intro e2 he2
    simp only [fileStep] at he2
    split at he2
    · exact hacc e2 he2
    · split at he2
      · exact hacc e2 he2
      · simp only [List.mem_append, List.mem_singleton] at he2
        rcases he2 with h | h
        · exact hacc e2 h
        · subst h
          rename_i hne _
          refine ⟨fun hcon => absurd hcon (by simp), ?_, ?_⟩
          · intro _
            exact Bool.not_eq_true _ ▸ hne
          · intro hk
            simp only [walkStop, Bool.and_eq_true, decide_eq_true_eq] at hstop
            show acc.1.length < cfg.max_results
            omega
  | case4 rest acc hstop p es ih =>
    intro hts hacc e he
    rw [walkGo_dir, if_neg hstop] at he
    refine ih ?_ ?_ e he
    · intro p2 es2 hmem
      simp only [List.mem_append] at hmem
      rcases hmem with h | h | h
      · exact absurd h (fun hh => fileTasksOf_no_wdir p es p2 es2 hh)
      · exact hQ p2 (dirTasksOf_mem_excl cfg p es p2 es2 h)
      · exact hts p2 es2 (List.mem_cons_of_mem _ h)
    · intro e2 he2
      simp only [List.mem_append, List.mem_singleton] at he2
      rcases he2 with h | h
      · exact hacc e2 h
      · subst h
        refine ⟨?_, fun hcon => absurd hcon (by simp), ?_⟩
        · intro _
          exact hts p es (by simp)
        · intro hk
          simp only [walkStop, Bool.and_eq_true, decide_eq_true_eq] at hstop
          show acc.1.length < cfg.max_results
          omega

theorem tasksFMmax_append (cfg : SearchConfig) (mat : Matcher) :
    ∀ (a b : List WTask), tasksFMmax cfg mat (a ++ b) =
      max (tasksFMmax cfg mat a) (tasksFMmax cfg mat b) := by
  intro a b
  induction a with
  | nil => simp [tasksFMmax]
  | cons t rest ih =>
    simp only [List.cons_append, List.append_eq, tasksFMmax, ih]
    exact (Nat.max_assoc _ _ _).symm

theorem fileTasksOf_FM (cfg : SearchConfig) (mat : Matcher) (p : Str) :
    ∀ (es : List (Str × FSTree)),
      tasksFMmax cfg mat (fileTasksOf p es) ≤ maxFileMatchesT.maxFMList cfg mat p es := by
  intro es
  induction es with
  | nil => simp [fileTasksOf, tasksFMmax, maxFileMatchesT.maxFMList]
  | cons e rest ih =>
    obtain ⟨name, t⟩ := e
    cases t with
    | file n =>
      simp only [fileTasksOf, tasksFMmax, taskFM, maxFileMatchesT.maxFMList, maxFileMatchesT]
      omega
    | dir sub =>
      simp only [fileTasksOf, maxFileMatchesT.maxFMList]
      omega

theorem dirTasksOf_FM (cfg : SearchConfig) (mat : Matcher) (p : Str) :
    ∀ (es : List (Str × FSTree)),
      tasksFMmax cfg mat (dirTasksOf cfg p es) ≤ maxFileMatchesT.maxFMList cfg mat p es := by
  intro es
  induction es with
  | nil => simp [dirTasksOf, tasksFMmax, maxFileMatchesT.maxFMList]
  | cons e rest ih =>
    obtain ⟨name, t⟩ := e
    cases t with
    | file n =>
      simp only [dirTasksOf, maxFileMatchesT.maxFMList]
      omega
    | dir sub =>
      simp only [dirTasksOf, maxFileMatchesT.maxFMList]
      split
      · omega
      · simp only [tasksFMmax, taskFM, maxFileMatchesT]
        omega

theorem walkGo_bound (cfg : SearchConfig) (mat : Matcher) (hk : 0 < cfg.max_results) :
    ∀ (ts : List WTask) (acc : SAcc),
      (walkGo cfg mat ts acc).1.length ≤
        max acc.1.length (cfg.max_results - 1 + tasksFMmax cfg mat ts) := by
  intro ts acc
  induction ts, acc using walkGo.induct cfg mat with
  | case1 acc => rw [walkGo_nil]; omega
  | case2 t rest acc hstop =>
    cases t with
    | wfile p nm n => rw [walkGo_file, if_pos hstop]; omega
    | wdir p es => rw [walkGo_dir, if_pos hstop]; omega
  | case3 rest acc hstop p nm n ih =>
    rw [walkGo_file, if_neg hstop]
    have hstep : (fileStep cfg mat p nm n acc).1.length ≤
        max acc.1.length (cfg.max_results - 1 + tasksFMmax cfg mat (WTask.wfile p nm n :: rest)) := by
      simp only [fileStep]
      split
      · omega
      · split
        · omega
        · simp only [List.length_append]
          have h1 : (searchFile cfg mat p n).length ≤
              tasksFMmax cfg mat (WTask.wfile p nm n :: rest) := by
            simp only [tasksFMmax, taskFM]
            omega
          have h2 : acc.1.length < cfg.max_results := by
            simp only [walkStop, Bool.and_eq_true, decide_eq_true_eq] at hstop
            omega
          omega
    have hfm : tasksFMmax cfg mat rest ≤ tasksFMmax cfg mat (WTask.wfile p nm n :: rest) := by
      simp only [tasksFMmax]
      omega
    omega
  | case4 rest acc hstop p es ih =>
    rw [walkGo_dir, if_neg hstop]
    have hfm : tasksFMmax cfg mat (fileTasksOf p es ++ (dirTasksOf cfg p es ++ rest)) ≤
        tasksFMmax cfg mat (WTask.wdir p es :: rest) := by
      rw [tasksFMmax_append, tasksFMmax_append]
      have h1 := fileTasksOf_FM cfg mat p es
      have h2 := dirTasksOf_FM cfg mat p es
      simp only [tasksFMmax, taskFM]
      omega
    simp only at ih
    omega

theorem walkGo_unlimited (cfg : SearchConfig) (mat : Matcher) (hk : 0 < cfg.max_results) :
    ∀ (ts : List WTask) (acc : SAcc),
      (walkGo cfg mat ts acc).1.length < cfg.max_results →
      walkGo cfg mat ts acc = walkGo {cfg with max_results := 0} mat ts acc := by
  intro ts acc
  induction ts, acc using walkGo.induct cfg mat with
  | case1 acc => intro _; rw [walkGo_nil, walkGo_nil]
  | case2 t rest acc hstop =>
    intro hlen
    exfalso
    cases t with
    | wfile p nm n =>
      rw [walkGo_file, if_pos hstop] at hlen
      simp only [walkStop, Bool.and_eq_true, decide_eq_true_eq] at hstop
      omega
    | wdir p es =>
      rw [walkGo_dir, if_pos hstop] at hlen
      simp only [walkStop, Bool.and_eq_true, decide_eq_true_eq] at hstop
      omega
  | case3 rest acc hstop p nm n ih =>
    intro hlen
    rw [walkGo_file, if_neg hstop] at hlen ⊢
    rw [walkGo_file, if_neg (by simp [walkStop])]
    rw [← fileStep_congr cfg {cfg with max_results := 0} rfl rfl rfl rfl rfl rfl rfl rfl
      mat p nm n acc]
    exact ih hlen
  | case4 rest acc hstop p es ih =>
    intro hlen
    rw [walkGo_dir, if_neg hstop] at hlen ⊢
    rw [walkGo_dir, if_neg (by simp [walkStop])]
    rw [← dirTasksOf_congr cfg {cfg with max_results := 0} rfl p es]
    exact ih hlen

theorem searchFull_file (cr : Bool → Str → Option Matcher) (na : Str → Bool)
    (cfg : SearchConfig) (rootPath : Str) (n : FileNode) (pattern : Str) (mat : Matcher)
    (h1 : pattern.isEmpty = false) (h2 : (isNetworkPath rootPath && !na rootPath) = false)
    (hc : compilePattern cr cfg pattern = some mat) :
    searchFull cr na cfg rootPath (FSTree.file n) pattern =
      if !isExcluded cfg rootPath && extAllowed cfg rootPath then
        (searchFile cfg mat rootPath n, [⟨rootPath, 0, false⟩]) else ([], []) := by
  simp only [searchFull, h1, h2, Bool.false_eq_true, if_false, hc]

theorem searchFull_dir (cr : Bool → Str → Option Matcher) (na : Str → Bool)
    (cfg : SearchConfig) (rootPath : Str) (es : List (Str × FSTree)) (pattern : Str)
    (mat : Matcher)
    (h1 : pattern.isEmpty = false) (h2 : (isNetworkPath rootPath && !na rootPath) = false)
    (hc : compilePattern cr cfg pattern = some mat) :
    searchFull cr na cfg rootPath (FSTree.dir es) pattern =
      walkGo cfg mat [WTask.wdir rootPath es] ([], []) := by
  simp only [searchFull, h1, h2, Bool.false_eq_true, if_false, hc]

theorem searchFull_nomatcher (cr : Bool → Str → Option Matcher) (na : Str → Bool)
    (cfg : SearchConfig) (rootPath : Str) (tree : FSTree) (pattern : Str)
    (h1 : pattern.isEmpty = false) (h2 : (isNetworkPath rootPath && !na rootPath) = false)
    (hc : compilePattern cr cfg pattern = none) :
    searchFull cr na cfg rootPath tree pattern = ([], []) := by
  simp only [searchFull, h1, h2, Bool.false_eq_true, if_false, hc]

/-- Claim C5: with a positive result ceiling, `search` returns at least
`min ceiling (unlimited count)` matches (never fewer than the ceiling while
matches remain), overshoots the ceiling by at most one file's match count
minus one (the single file being extracted when the ceiling is reached), and
every visit the walker performs — directory listing or file extraction —
happens strictly before the accumulator reaches the ceiling. -/
theorem result_ceiling_behavior (cr : Bool → Str → Option Matcher) (na : Str → Bool)
    (cfg : SearchConfig) (rootPath : Str) (tree : FSTree) (pattern : Str) (mat : Matcher)
    (hk : 0 < cfg.max_results)
    (hc : compilePattern cr cfg pattern = some mat) :
    min cfg.max_results
        (searchFull cr na {cfg with max_results := 0} rootPath tree pattern).1.length ≤
      (searchFull cr na cfg rootPath tree pattern).1.length ∧
    (searchFull cr na cfg rootPath tree pattern).1.length ≤
      cfg.max_results - 1 + maxFileMatchesT cfg mat rootPath tree ∧
    ∀ e ∈ (searchFull cr na cfg rootPath tree pattern).2, e.pre < cfg.max_results := by
  have hc0 : compilePattern cr {cfg with max_results := 0} pattern = some mat := hc
  by_cases h1 : pattern.isEmpty = true
  · simp [searchFull, h1]
  · have h1f : pattern.isEmpty = false := Bool.not_eq_true _ ▸ h1
    by_cases h2 : (isNetworkPath rootPath && !na rootPath) = true
    · simp [searchFull, h2]
    · have h2f : (isNetworkPath rootPath && !na rootPath) = false := Bool.not_eq_true _ ▸ h2
      cases tree with
      | file n =>
        rw [searchFull_file cr na cfg rootPath n pattern mat h1f h2f hc,
          searchFull_file cr na {cfg with max_results := 0} rootPath n pattern mat h1f h2f hc0]
        have hie : (!isExcluded {cfg with max_results := 0} rootPath &&
            extAllowed {cfg with max_results := 0} rootPath) =
            (!isExcluded cfg rootPath && extAllowed cfg rootPath) := rfl
        have hsf : searchFile {cfg with max_results := 0} mat rootPath n =
            searchFile cfg mat rootPath n :=
          searchFile_congr {cfg with max_results := 0} cfg rfl rfl rfl rfl rfl rfl
            mat rootPath n
        rw [hie, hsf]
        split
        · refine ⟨Nat.min_le_right _ _, ?_, ?_⟩
          · simp only [maxFileMatchesT]
            omega
          · intro e he
            simp only [List.mem_singleton] at he
            subst he
            exact hk
        · exact ⟨by simp, by simp, by simp⟩
      | dir es =>
        rw [searchFull_dir cr na cfg rootPath es pattern mat h1f h2f hc,
          searchFull_dir cr na {cfg with max_results := 0} rootPath es pattern mat h1f h2f hc0]
        refine ⟨?_, ?_, ?_⟩
        · by_cases hlen :
            (walkGo cfg mat [WTask.wdir rootPath es] ([], [])).1.length < cfg.max_results
          · rw [← walkGo_unlimited cfg mat hk [WTask.wdir rootPath es] ([], []) hlen]
            omega
          · omega
        · have hb := walkGo_bound cfg mat hk [WTask.wdir rootPath es] ([], [])
          have hfm : tasksFMmax cfg mat [WTask.wdir rootPath es] =
              maxFileMatchesT cfg mat rootPath (FSTree.dir es) := by
            simp [tasksFMmax, taskFM, maxFileMatchesT]
          rw [hfm] at hb
          simp only [List.length_nil] at hb
          omega
        · intro e he
          have hev := walkGo_events cfg mat (fun _ => True) (fun _ _ => trivial)
            [WTask.wdir rootPath es] ([], []) (fun _ _ _ => trivial) (by simp) e he
          exact hev.2.2 hk

/-- Witness for C5 at a concrete input: ceiling 1, one matching file. -/
theorem result_ceiling_behavior_witness :
    (searchFull (fun _ _ => none) (fun _ => true) { max_results := 1 } "r".data
        (FSTree.dir [("a.txt".data, FSTree.file { size := 2, bytes := [97, 10] })])
        "a".data).1.length ≤
      1 - 1 + maxFileMatchesT { max_results := 1 } (fun s => litFinditer true "a".data s)
        "r".data (FSTree.dir [("a.txt".data, FSTree.file { size := 2, bytes := [97, 10] })]) :=
  (result_ceiling_behavior (fun _ _ => none) (fun _ => true) { max_results := 1 } "r".data
    (FSTree.dir [("a.txt".data, FSTree.file { size := 2, bytes := [97, 10] })])
    "a".data (fun s => litFinditer true "a".data s) (by decide) rfl).2.1

/-- Claim C6: with file-metadata mode enabled, a file whose extension is in
neither metadata extension set (a plain `.txt` file, for instance)
contributes zero matches whatever its content: metadata modes suppress
plain-text, binary and archive scanning of such files entirely. -/
theorem metadata_mode_excludes_plain_files (cfg : SearchConfig) (mat : Matcher)
    (path : Str) (n : FileNode) (hsfm : cfg.search_file_metadata = true)
    (h1 : FILE_METADATA_EXTENSIONS.contains (extOf path) = false)
    (h2 : IMAGE_EXTENSIONS.contains (extOf path) = false) :
    searchFile cfg mat path n = [] := by
  have harc : ARCHIVE_EXTENSIONS.contains (extOf path) = false := by
    by_contra hcon
    have hcon' : ARCHIVE_EXTENSIONS.contains (extOf path) = true := by
      revert hcon
      cases ARCHIVE_EXTENSIONS.contains (extOf path) <;> simp
    have hmem : extOf path = ".zip".data ∨ extOf path = ".epub".data := by
      simpa [ARCHIVE_EXTENSIONS] using hcon'
    rcases hmem with hz | he
    · rw [hz] at h1
      exact absurd h1 (by decide)
    · rw [he] at h1
      exact absurd h1 (by decide)
  rw [searchFile, harc, h1, h2, hsfm]
  simp only [Bool.and_false, Bool.false_eq_true, if_false, Bool.or_true, if_true, ite_self]

/-- Witness for C6: a `.txt` file whose text contains the pattern yields
nothing once file-metadata mode is on. -/
theorem metadata_mode_excludes_plain_files_witness :
    searchFile { search_file_metadata := true } (fun s => litFinditer true "hello".data s)
      "r/notes.txt".data { size := 6, bytes := [104, 101, 108, 108, 111, 10] } = [] :=
  metadata_mode_excludes_plain_files { search_file_metadata := true }
    (fun s => litFinditer true "hello".data s) "r/notes.txt".data
    { size := 6, bytes := [104, 101, 108, 108, 111, 10] } rfl (by decide) (by decide)

/-- Claim C7: every match the plain-text line loop produces has a context
window that is the slice `[i - context_lines, i + context_lines]` of the
file's lines clamped to file bounds (indexing 0-based, `line_number = i + 1`),
so its `context_before` has length `min i context_lines` and its
`context_after` has length `min (lines.length - (i + 1)) context_lines`. -/
theorem context_window_spec (cfg : SearchConfig) (mat : Matcher) (path : Str)
    (lines : List Str) (m : SearchMatch)
    (hm : m ∈ searchTextLines cfg mat path lines) :
    ∃ i, i < lines.length ∧ m.line_number = i + 1 ∧
      m.context_before = ctxSpecBefore lines i cfg.context_lines ∧
      m.context_after = ctxSpecAfter lines i cfg.context_lines ∧
      m.context_before.length = min i cfg.context_lines ∧
      m.context_after.length = min (lines.length - (i + 1)) cfg.context_lines := by
  obtain ⟨j, hj, hmem⟩ := textGo_mem cfg mat path lines lines 0 m hm
  obtain ⟨sp, hsp, hfp, hln, hlc, hms, hme, hcb, hca⟩ :=
    lineMatches_mem cfg mat path lines (0 + j) (lines.getD j []) m hmem
  simp only [Nat.zero_add] at hln hcb hca
  refine ⟨j, hj, hln, ?_, ?_, ?_, ?_⟩
  · rw [hcb]
    exact ctxBefore_eq_spec lines j cfg.context_lines hj
  · rw [hca]
    exact ctxAfter_eq_spec lines j cfg.context_lines hj
  · rw [hcb]
    by_cases h : 0 < cfg.context_lines
    · rw [if_pos h, ctxSlice_length]
      omega
    · rw [if_neg h]
      simp only [List.length_nil]
      omega
  · rw [hca]
    by_cases h : 0 < cfg.context_lines
    · rw [if_pos h, ctxSlice_length]
      omega
    · rw [if_neg h]
      simp only [List.length_nil]
      omega

set_option maxRecDepth 1000000 in
/-- Witness for C7: on the concrete ten-line file with context 3, the match
on line 1 has a before-window of length 0 and an after-window of length 3,
and the match on line 10 has a before-window of length 3 and an
after-window of length 0. -/
theorem context_window_spec_witness :
    (∃ i, i < tenLines.length ∧ (1 : Nat) = i + 1 ∧
      ([] : List Str) = ctxSpecBefore tenLines i 3 ∧
      (["a".data, "b".data, "c".data] : List Str) = ctxSpecAfter tenLines i 3 ∧
      (0 : Nat) = min i 3 ∧ (3 : Nat) = min (tenLines.length - (i + 1)) 3) ∧
    (∃ i, i < tenLines.length ∧ (10 : Nat) = i + 1 ∧
      (["f".data, "g".data, "h".data] : List Str) = ctxSpecBefore tenLines i 3 ∧
      ([] : List Str) = ctxSpecAfter tenLines i 3 ∧
      (3 : Nat) = min i 3 ∧ (0 : Nat) = min (tenLines.length - (i + 1)) 3) :=
  ⟨context_window_spec { context_lines := 3 } (fun s => litFinditer true "hit".data s)
      "f.txt".data tenLines
      ⟨"f.txt".data, 1, "hit".data, 0, 3, [], ["a".data, "b".data, "c".data]⟩ (by decide),
    context_window_spec { context_lines := 3 } (fun s => litFinditer true "hit".data s)
      "f.txt".data tenLines
      ⟨"f.txt".data, 10, "hit".data, 0, 3, ["f".data, "g".data, "h".data], []⟩ (by decide)⟩

/-- Claim C2 (amended): the archive extractor decodes member bytes with
`errors="ignore"`, which never raises, so a member whose bytes are NOT valid
text (not UTF-8 decodable) is still lenient-decoded and searched line by
line: any span the matcher finds in the decoded text becomes a match for
that member.  The binary-skip branch for undecodable members is dead code. -/
theorem archive_member_lenient_search (cfg : SearchConfig) (mat : Matcher)
    (path : Str) (n : FileNode) (mem : ZipMember) (j : Nat) (sp : Nat × Nat)
    (hzip : n.zipOk = true) (hmem : mem ∈ n.members)
    (hnd : endsWithStr "/".data mem.name = false)
    (hsz : mem.fileSize ≤ cfg.max_search_file_size)
    (hro : mem.readOk = true)
    (hbad : utf8Valid mem.bytes = false)
    (hj : j < (splitOnNl (utf8DecodeIgnore mem.bytes)).length)
    (hsp : sp ∈ mat ((splitOnNl (utf8DecodeIgnore mem.bytes)).getD j [])) :
    ∃ m ∈ searchArchive cfg mat path n,
      m.file_path = joinPath path mem.name ∧ m.line_number = j + 1 ∧
      m.match_start = sp.1 ∧ m.match_end = sp.2 := by
  obtain ⟨m, hm, h1, h2, h3, h4⟩ :=
    textGo_mk cfg mat (joinPath path mem.name) (splitOnNl (utf8DecodeIgnore mem.bytes))
      (splitOnNl (utf8DecodeIgnore mem.bytes)) 0 j sp hj hsp
  refine ⟨m, ?_, h1, by omega, h3, h4⟩
  simp only [searchArchive, hzip, if_true]
  exact archGo_mk cfg mat path n.members mem hmem hnd hsz hro m
    (by simpa [searchArchiveMember] using hm)

set_option maxRecDepth 1000000 in
/-- Witness for C2 (amended): a member whose bytes start with two invalid
`0xFF` bytes (so they are not UTF-8) still produces a match on the
lenient-decoded text `hello`. -/
theorem archive_member_lenient_search_witness :
    ∃ m ∈ searchArchive { search_in_archives := true }
        (fun s => litFinditer true "hello".data s) "a.zip".data
        { size := 7, zipOk := true,
          members := [{ name := "x.dat".data, fileSize := 7,
                        bytes := [255, 255, 104, 101, 108, 108, 111] }] },
      m.file_path = "a.zip/x.dat".data ∧ m.line_number = 1 ∧
      m.match_start = 0 ∧ m.match_end = 5 :=
  archive_member_lenient_search { search_in_archives := true }
    (fun s => litFinditer true "hello".data s) "a.zip".data
    { size := 7, zipOk := true,
      members := [{ name := "x.dat".data, fileSize := 7,
                    bytes := [255, 255, 104, 101, 108, 108, 111] }] }
    { name := "x.dat".data, fileSize := 7,
      bytes := [255, 255, 104, 101, 108, 108, 111] } 0 (0, 5)
    rfl (List.Mem.head _) (by decide) (by decide) rfl (by decide) (by decide) (by decide)

set_option maxRecDepth 1000000 in
/-- Counterexample to C2 as stated: the bytes `FF FF 68 65 6C 6C 6F` are not
valid UTF-8, yet searching the archive holding them as member `x.dat`
produces a match at the composite path `a.zip/x.dat` (line 1, span 0-5 in
the lenient-decoded text `hello`).  An undecodable member is not skipped. -/
theorem archive_undecodable_member_matched :
    utf8Valid [255, 255, 104, 101, 108, 108, 111] = false ∧
    (searchFile { search_in_archives := true }
        (fun s => litFinditer true "hello".data s) "a.zip".data
        { size := 7, zipOk := true,
          members := [{ name := "x.dat".data, fileSize := 7,
                        bytes := [255, 255, 104, 101, 108, 108, 111] }] }).map
        (fun m => (m.file_path, m.line_number, m.match_start, m.match_end)) =
      [("a.zip/x.dat".data, 1, 0, 5)] :=
  ⟨by decide, by decide⟩

/-- Claim C3 (amended): the binary extractor runs the matcher over the
LENIENT-DECODED text and reports each span's start as the "line number";
that start is a character offset in the decoded text, which equals the byte
offset only when decoding is one-to-one.  For all-ASCII content (where the
two coincide) every match does satisfy the spec: the reported number is the
byte offset of the pattern's bytes, and the synthesized line is the
fixed-width-hex offset prefix followed by the space-separated hex pairs of
the window 16 bytes before/after the match clamped to file bounds. -/
theorem binary_hex_ascii (path : Str) (content : List Nat) (pat : Str)
    (m : SearchMatch) (hascii : ∀ b ∈ content, b < 128)
    (hm : m ∈ searchBinary path content (fun s => litFinditer false pat s)) :
    ∃ off, m.line_number = off ∧ m.match_start = off ∧
      m.match_end = off + pat.length ∧ off + pat.length ≤ content.length ∧
      (content.drop off).take pat.length = pat.map Char.toNat ∧
      m.line_content = hexLineSpec content off ∧
      m.context_before = [] ∧ m.context_after = [] := by
  obtain ⟨sp, hsp, hfp, hln, hms, hme, hcb, hca, hlc⟩ :=
    searchBinary_mem path content _ m hm
  rw [utf8DecodeIgnore_ascii content hascii] at hsp
  obtain ⟨h1, h2, h3, h4⟩ := litFA_mem false pat (content.map Char.ofNat) 0 0 sp hsp
  simp only [Nat.sub_zero, List.length_map] at h3 h4
  refine ⟨sp.1, hln, hms, by rw [hme, h2], by omega, ?_, ?_, hcb, hca⟩
  · have ht := leadsWithCi_false_take pat ((content.map Char.ofNat).drop sp.1) h4
    have hq : ((content.drop sp.1).take pat.length).map Char.ofNat = pat := by
      rw [List.map_take, List.map_drop]
      exact ht
    have hmapped := congrArg (List.map Char.toNat) hq
    rw [List.map_map] at hmapped
    have hid : ((content.drop sp.1).take pat.length).map (Char.toNat ∘ Char.ofNat) =
        (content.drop sp.1).take pat.length := by
      have hfn : ∀ b ∈ (content.drop sp.1).take pat.length,
          (Char.toNat ∘ Char.ofNat) b = id b := by
        intro b hb
        have hbc : b ∈ content := List.mem_of_mem_drop (List.mem_of_mem_take hb)
        simp [char_toNat_ofNat b (hascii b hbc)]
      rw [List.map_congr_left hfn, List.map_id]
    calc (content.drop sp.1).take pat.length
        = ((content.drop sp.1).take pat.length).map (Char.toNat ∘ Char.ofNat) := hid.symm
      _ = pat.map Char.toNat := hmapped
  · rw [hlc]
    simp only [hexLineSpec, hexWindowSpec]
    rw [hexSpaced_eq_joinSpace, dropTake_eq_range' 0 _ _ content (by omega)]

set_option maxRecDepth 1000000 in
/-- Witness for C3 (amended): on the ASCII bytes `61 62 20 68 69 74`
(`ab hit`) the single match for `hit` reports byte offset 3, the pattern's
bytes do sit at offset 3, and the synthesized line is the spec's window
rendering. -/
theorem binary_hex_ascii_witness :
    ∃ off,
      (⟨"b.dat".data, 3, "Offset 00000003: 61 62 20 68 69 74".data, 3, 6, [], []⟩ :
        SearchMatch).line_number = off ∧
      (⟨"b.dat".data, 3, "Offset 00000003: 61 62 20 68 69 74".data, 3, 6, [], []⟩ :
        SearchMatch).match_start = off ∧
      (⟨"b.dat".data, 3, "Offset 00000003: 61 62 20 68 69 74".data, 3, 6, [], []⟩ :
        SearchMatch).match_end = off + "hit".data.length ∧
      off + "hit".data.length ≤ ([97, 98, 32, 104, 105, 116] : List Nat).length ∧
      (([97, 98, 32, 104, 105, 116] : List Nat).drop off).take "hit".data.length =
        "hit".data.map Char.toNat ∧
      (⟨"b.dat".data, 3, "Offset 00000003: 61 62 20 68 69 74".data, 3, 6, [], []⟩ :
        SearchMatch).line_content = hexLineSpec [97, 98, 32, 104, 105, 116] off ∧
      (⟨"b.dat".data, 3, "Offset 00000003: 61 62 20 68 69 74".data, 3, 6, [], []⟩ :
        SearchMatch).context_before = [] ∧
      (⟨"b.dat".data, 3, "Offset 00000003: 61 62 20 68 69 74".data, 3, 6, [], []⟩ :
        SearchMatch).context_after = [] :=
  binary_hex_ascii "b.dat".data [97, 98, 32, 104, 105, 116] "hit".data
    ⟨"b.dat".data, 3, "Offset 00000003: 61 62 20 68 69 74".data, 3, 6, [], []⟩
    (by decide) (by decide)

set_option maxRecDepth 1000000 in
/-- Counterexample to C3 as stated: on the bytes `C3 A9 68 65 69 74`-like
content `C3 A9 68 69 74` (`é` followed by `hit`), the match for `hit`
reports 1 — its character offset in the decoded text — although the
pattern's bytes sit at byte offset 2, not 1; the hex window is likewise
taken around raw-byte index 1. -/
theorem binary_offset_mismatch :
    (searchBinary "b.dat".data [195, 169, 104, 105, 116]
        (fun s => litFinditer false "hit".data s)).map
        (fun m => (m.line_number, m.line_content)) =
      [(1, "Offset 00000001: c3 a9 68 69 74".data)] ∧
    (([195, 169, 104, 105, 116] : List Nat).drop 1).take 3 ≠ [104, 105, 116] ∧
    (([195, 169, 104, 105, 116] : List Nat).drop 2).take 3 = [104, 105, 116] :=
  ⟨by decide, by decide, by decide⟩

theorem searchFile_path (cfg : SearchConfig) (mat : Matcher) (path : Str) (n : FileNode)
    (hsa : cfg.search_in_archives = false) (m : SearchMatch)
    (hm : m ∈ searchFile cfg mat path n) : m.file_path = path := by
  rw [searchFile, hsa] at hm
  simp only [Bool.false_and, Bool.false_eq_true, if_false] at hm
  split at hm
  · simp at hm
  · split at hm
    · exact (metaGo_mem path mat n.metadata 1 m (by simpa [metadataMatches] using hm)).1
    · split at hm
      · exact (metaGo_mem path mat n.metadata 1 m (by simpa [metadataMatches] using hm)).1
      · split at hm
        · simp at hm
        · split at hm
          · split at hm
            · obtain ⟨sp, _, hfp, _⟩ := searchBinary_mem path n.bytes mat m hm
              exact hfp
            · simp at hm
          · split at hm
            · obtain ⟨j, hj, hmem⟩ := textGo_mem cfg mat path (readLinesOf n.bytes)
                (readLinesOf n.bytes) 0 m (by simpa [searchTextLines] using hm)
              obtain ⟨sp, _, hfp, _⟩ := lineMatches_mem cfg mat path (readLinesOf n.bytes)
                (0 + j) _ m hmem
              exact hfp
            · simp at hm

theorem leadsWith_append_left :
    ∀ (a b s : Str), leadsWith (a ++ b) s = true → leadsWith a s = true := by
  intro a
  induction a with
  | nil => intro b s _; rfl
  | cons x xs ih =>
    intro b s h
    cases s with
    | nil => simp [leadsWith] at h
    | cons y ys =>
      simp only [List.cons_append, leadsWith, Bool.and_eq_true] at h ⊢
      exact ⟨h.1, ih b ys h.2⟩

theorem containsSub_append_left (a b : Str) :
    ∀ (s : Str), containsSub (a ++ b) s = true → containsSub a s = true := by
  intro s
  induction s with
  | nil =>
    intro h
    simp only [containsSub, List.isEmpty_iff, List.append_eq_nil] at h ⊢
    exact h.1
  | cons c rest ih =>
    intro h
    simp only [containsSub, Bool.or_eq_true] at h ⊢
    rcases h with h | h
    · exact Or.inl (leadsWith_append_left a b _ h)
    · exact Or.inr (ih h)

theorem isExcluded_no_git (cfg : SearchConfig) (p : Str)
    (hg : "\\.git".data ∈ cfg.exclude_patterns)
    (h : isExcluded cfg p = false) :
    containsSub ".git/".data (normalizeSep p) = false := by
  by_contra hcon
  have hcon2 : containsSub ".git/".data (normalizeSep p) = true := by
    revert hcon
    cases containsSub ".git/".data (normalizeSep p) <;> simp
  have hsub : containsSub ".git".data (normalizeSep p) = true :=
    containsSub_append_left ".git".data "/".data (normalizeSep p) hcon2
  have hre : reSearchLit "\\.git".data (normalizeSep p) = true := by
    have hu : unescapeFrag "\\.git".data = (".git".data, false) := rfl
    simp only [reSearchLit, hu, Bool.false_eq_true, if_false]
    exact hsub
  have hex : isExcluded cfg p = true := by
    simp only [isExcluded, List.any_eq_true]
    exact ⟨_, hg, hre⟩
  rw [h] at hex
  exact Bool.false_ne_true hex

/-- Claim C8 (amended): with the default `\.git` exclusion pattern present
and archive search disabled, no returned match has a path whose
separator-normalized form contains `.git/`, and every directory listing
the walker performs is either the root itself or a directory whose
normalized path does not contain `.git/` (the root's own listing is never
exclusion-checked; and with archive search enabled the composite
`archive/member` paths bypass the exclusion filter, so the guarantee needs
both provisos). -/
theorem git_exclusion_amended (cr : Bool → Str → Option Matcher) (na : Str → Bool)
    (cfg : SearchConfig) (rootPath : Str) (tree : FSTree) (pattern : Str)
    (hg : "\\.git".data ∈ cfg.exclude_patterns)
    (hsa : cfg.search_in_archives = false) :
    (∀ m ∈ (searchFull cr na cfg rootPath tree pattern).1,
      containsSub ".git/".data (normalizeSep m.file_path) = false) ∧
    (∀ e ∈ (searchFull cr na cfg rootPath tree pattern).2, e.isDir = true →
      e.path = rootPath ∨ containsSub ".git/".data (normalizeSep e.path) = false) := by
  by_cases h1 : pattern.isEmpty = true
  · constructor <;> simp [searchFull, h1]
  · have h1f : pattern.isEmpty = false := Bool.not_eq_true _ ▸ h1
    by_cases h2 : (isNetworkPath rootPath && !na rootPath) = true
    · constructor <;> simp [searchFull, h1f, h2]
    · have h2f : (isNetworkPath rootPath && !na rootPath) = false := Bool.not_eq_true _ ▸ h2
      cases hcp : compilePattern cr cfg pattern with
      | none =>
        rw [searchFull_nomatcher cr na cfg rootPath tree pattern h1f h2f hcp]
        constructor <;> simp
      | some mat =>
        cases tree with
        | file n =>
          rw [searchFull_file cr na cfg rootPath n pattern mat h1f h2f hcp]
          by_cases hcond : (!isExcluded cfg rootPath && extAllowed cfg rootPath) = true
          · rw [if_pos hcond]
            simp only [Bool.and_eq_true, Bool.not_eq_true'] at hcond
            constructor
            · intro m hm
              rw [searchFile_path cfg mat rootPath n hsa m hm]
              exact isExcluded_no_git cfg rootPath hg hcond.1
            · intro e he hdir
              simp only [List.mem_singleton] at he
              subst he
              simp at hdir
          · rw [if_neg hcond]
            constructor <;> simp
        | dir es =>
          rw [searchFull_dir cr na cfg rootPath es pattern mat h1f h2f hcp]
          constructor
          · intro m hm
            rcases walkGo_prov cfg mat [WTask.wdir rootPath es] ([], []) m hm with
              hacc | ⟨p, nn, hexc, hmf⟩
            · simp at hacc
            · rw [searchFile_path cfg mat p nn hsa m hmf]
              exact isExcluded_no_git cfg p hg hexc
          · intro e he hdir
            have hev := walkGo_events cfg mat
              (fun p => p = rootPath ∨ containsSub ".git/".data (normalizeSep p) = false)
              (fun p hp => Or.inr (isExcluded_no_git cfg p hg hp))
              [WTask.wdir rootPath es] ([], [])
              (fun p es2 hmem => by
                simp only [List.mem_singleton] at hmem
                injection hmem with hp _
                exact Or.inl hp)
              (by simp) e he
            exact hev.1 hdir

/-- Witness for C8 (amended): on a tree holding a `.git` directory with a
matching `config` file next to a matching plain file, the default
configuration (which carries the `\.git` exclusion and no archive search)
satisfies both guarantees. -/
theorem git_exclusion_amended_witness :
    (∀ m ∈ (searchFull (fun _ _ => none) (fun _ => true) {} "r".data
        (FSTree.dir [(".git".data, FSTree.dir
            [("config".data, FSTree.file { size := 4, bytes := [104, 105, 116, 10] })]),
          ("a.txt".data, FSTree.file { size := 4, bytes := [104, 105, 116, 10] })])
        "hit".data).1,
      containsSub ".git/".data (normalizeSep m.file_path) = false) ∧
    (∀ e ∈ (searchFull (fun _ _ => none) (fun _ => true) {} "r".data
        (FSTree.dir [(".git".data, FSTree.dir
            [("config".data, FSTree.file { size := 4, bytes := [104, 105, 116, 10] })]),
          ("a.txt".data, FSTree.file { size := 4, bytes := [104, 105, 116, 10] })])
        "hit".data).2, e.isDir = true →
      e.path = "r".data ∨ containsSub ".git/".data (normalizeSep e.path) = false) :=
  git_exclusion_amended (fun _ _ => none) (fun _ => true) {} "r".data
    (FSTree.dir [(".git".data, FSTree.dir
        [("config".data, FSTree.file { size := 4, bytes := [104, 105, 116, 10] })]),
      ("a.txt".data, FSTree.file { size := 4, bytes := [104, 105, 116, 10] })])
    "hit".data (by decide) rfl

set_option maxRecDepth 1000000 in
/-- Counterexample to C8 as stated: with archive search enabled, an archive
member named `.git/config` produces a returned match whose path
`r/a.zip/.git/config` contains `.git/` in normalized form — composite
archive paths are never run through the exclusion filter. -/
theorem git_path_in_archive_match :
    (search (fun _ _ => none) (fun _ => true) { search_in_archives := true }
        "r/a.zip".data
        (FSTree.file
          { size := 4, zipOk := true,
            members := [{ name := ".git/config".data, fileSize := 4,
                          bytes := [104, 105, 116, 10] }] })
        "hit".data).map
      (fun m => (m.file_path, containsSub ".git/".data (normalizeSep m.file_path))) =
      [("r/a.zip/.git/config".data, true)] := by
  decide

theorem lineMatches_inv (cfg : SearchConfig) (mat : Matcher) (path : Str)
    (lines : List Str) (i : Nat) (line : Str) (hMO : MatcherOK mat) (m : SearchMatch)
    (hm : m ∈ lineMatches cfg mat path lines i line) :
    m.match_start ≤ m.match_end ∧ m.context_before.length ≤ cfg.context_lines ∧
      m.context_after.length ≤ cfg.context_lines := by
  obtain ⟨sp, hsp, hfp, hln, hlc, hms, hme, hcb, hca⟩ :=
    lineMatches_mem cfg mat path lines i line m hm
  have hspan := hMO line sp hsp
  refine ⟨by omega, ?_, ?_⟩
  · rw [hcb]
    by_cases h : 0 < cfg.context_lines
    · rw [if_pos h, ctxSlice_length]
      omega
    · rw [if_neg h]
      simp
  · rw [hca]
    by_cases h : 0 < cfg.context_lines
    · rw [if_pos h, ctxSlice_length]
      omega
    · rw [if_neg h]
      simp

theorem textGo_inv (cfg : SearchConfig) (mat : Matcher) (path : Str) (all : List Str)
    (hMO : MatcherOK mat) :
    ∀ (rest : List Str) (i : Nat) (m : SearchMatch), m ∈ textGo cfg mat path all rest i →
      m.match_start ≤ m.match_end ∧ m.context_before.length ≤ cfg.context_lines ∧
      m.context_after.length ≤ cfg.context_lines := by
  intro rest i m hm
  obtain ⟨j, hj, hmem⟩ := textGo_mem cfg mat path all rest i m hm
  exact lineMatches_inv cfg mat path all (i + j) _ hMO m hmem

theorem searchFile_inv (cfg : SearchConfig) (mat : Matcher) (path : Str) (n : FileNode)
    (hMO : MatcherOK mat) (m : SearchMatch) (hm : m ∈ searchFile cfg mat path n) :
    m.match_start ≤ m.match_end ∧ m.context_before.length ≤ cfg.context_lines ∧
      m.context_after.length ≤ cfg.context_lines := by
  rw [searchFile] at hm
  split at hm
  · simp at hm
  · split at hm
    · simp only [searchArchive] at hm
      split at hm
      · obtain ⟨mem, hmem, hmm⟩ := archGo_mem cfg mat path n.members m hm
        exact textGo_inv cfg mat (joinPath path mem.name) _ hMO _ 0 m
          (by simpa [searchArchiveMember] using hmm)
      · simp at hm
    · split at hm
      · obtain ⟨_, hcb, hca, sp, line, hsp, hms, hme, _⟩ :=
          metaGo_mem path mat n.metadata 1 m (by simpa [metadataMatches] using hm)
        have hspan := hMO line sp hsp
        exact ⟨by omega, by simp [hcb], by simp [hca]⟩
      · split at hm
        · obtain ⟨_, hcb, hca, sp, line, hsp, hms, hme, _⟩ :=
            metaGo_mem path mat n.metadata 1 m (by simpa [metadataMatches] using hm)
          have hspan := hMO line sp hsp
          exact ⟨by omega, by simp [hcb], by simp [hca]⟩
        · split at hm
          · simp at hm
          · split at hm
            · split at hm
              · obtain ⟨sp, hsp, hfp, hln, hms, hme, hcb, hca, hlc⟩ :=
                  searchBinary_mem path n.bytes mat m hm
                have hspan := hMO (utf8DecodeIgnore n.bytes) sp hsp
                exact ⟨by omega, by simp [hcb], by simp [hca]⟩
              · simp at hm
            · split at hm
              · exact textGo_inv cfg mat path (readLinesOf n.bytes) hMO _ 0 m
                  (by simpa [searchTextLines] using hm)
              · simp at hm

theorem compilePattern_ok (cr : Bool → Str → Option Matcher)
    (hMO : ∀ ci p mt, cr ci p = some mt → MatcherOK mt)
    (cfg : SearchConfig) (pattern : Str) (mat : Matcher)
    (hc : compilePattern cr cfg pattern = some mat) : MatcherOK mat := by
  simp only [compilePattern] at hc
  split at hc
  · exact hMO _ _ _ hc
  · split at hc
    · injection hc with h
      subst h
      exact wordFinditer_ok _ _
    · injection hc with h
      subst h
      exact litFinditer_ok _ _

/-- Claim C1 (amended): provided the regex engine honours the `finditer`
contract, every match `search` returns satisfies
`match_start ≤ match_end` and has context windows of at most
`context_lines` lines each; and in the plain-text extractor the match
additionally lies within the RAW line — `match_end` is bounded by the
length of the line as read (newline included), while `line_content` is
that line rstripped — and the context windows stay within the file
(at most `min i context_lines` lines before line `i + 1` and at most
`min (length - i - 1) context_lines` after).  The spec's stronger bound
`match_end ≤ len(line_content)` does not hold in general: the binary-hex
extractor pairs spans over the decoded text with a synthesized hex-dump
line of unrelated length. -/
theorem search_invariants_amended (cr : Bool → Str → Option Matcher) (na : Str → Bool)
    (cfg : SearchConfig) (rootPath : Str) (tree : FSTree) (pattern : Str)
    (hMO : ∀ ci p mt, cr ci p = some mt → MatcherOK mt) :
    (∀ m ∈ search cr na cfg rootPath tree pattern,
      m.match_start ≤ m.match_end ∧ m.context_before.length ≤ cfg.context_lines ∧
      m.context_after.length ≤ cfg.context_lines) ∧
    (∀ (mat : Matcher) (path : Str) (lines : List Str), MatcherOK mat →
      ∀ m ∈ searchTextLines cfg mat path lines,
        ∃ i, i < lines.length ∧ m.line_number = i + 1 ∧
          m.match_start ≤ m.match_end ∧ m.match_end ≤ (lines.getD i []).length ∧
          m.line_content = rstripNl (lines.getD i []) ∧
          m.context_before.length ≤ min i cfg.context_lines ∧
          m.context_after.length ≤ min (lines.length - (i + 1)) cfg.context_lines) := by
  constructor
  · intro m hm
    by_cases h1 : pattern.isEmpty = true
    · simp [search, searchFull, h1] at hm
    · have h1f : pattern.isEmpty = false := Bool.not_eq_true _ ▸ h1
      by_cases h2 : (isNetworkPath rootPath && !na rootPath) = true
      · simp [search, searchFull, h1f, h2] at hm
      · have h2f : (isNetworkPath rootPath && !na rootPath) = false := Bool.not_eq_true _ ▸ h2
        cases hcp : compilePattern cr cfg pattern with
        | none =>
          rw [search, searchFull_nomatcher cr na cfg rootPath tree pattern h1f h2f hcp] at hm
          simp at hm
        | some mat =>
          have hok : MatcherOK mat := compilePattern_ok cr hMO cfg pattern mat hcp
          cases tree with
          | file n =>
            rw [search, searchFull_file cr na cfg rootPath n pattern mat h1f h2f hcp] at hm
            split at hm
            · exact searchFile_inv cfg mat rootPath n hok m hm
            · simp at hm
          | dir es =>
            rw [search, searchFull_dir cr na cfg rootPath es pattern mat h1f h2f hcp] at hm
            rcases walkGo_prov cfg mat [WTask.wdir rootPath es] ([], []) m hm with
              hacc | ⟨p, nn, _, hmf⟩
            · simp at hacc
            · exact searchFile_inv cfg mat p nn hok m hmf
  · intro mat path lines hok m hm
    obtain ⟨j, hj, hmem⟩ := textGo_mem cfg mat path lines lines 0 m
      (by simpa [searchTextLines] using hm)
    obtain ⟨sp, hsp, hfp, hln, hlc, hms, hme, hcb, hca⟩ :=
      lineMatches_mem cfg mat path lines (0 + j) (lines.getD j []) m hmem
    simp only [Nat.zero_add] at hln hcb hca
    have hspan := hok (lines.getD j []) sp hsp
    refine ⟨j, hj, hln, by omega, by omega, hlc, ?_, ?_⟩
    · rw [hcb]
      by_cases h : 0 < cfg.context_lines
      · rw [if_pos h, ctxSlice_length]
        omega
      · rw [if_neg h]
        simp only [List.length_nil]
        omega
    · rw [hca]
      by_cases h : 0 < cfg.context_lines
      · rw [if_pos h, ctxSlice_length]
        omega
      · rw [if_neg h]
        simp only [List.length_nil]
        omega

/-- Witness for C1 (amended): at a concrete configuration and single-file
tree (where the literal matcher is compiled, so the regex-engine hypothesis
is vacuous) both invariant bundles hold. -/
theorem search_invariants_amended_witness :
    (∀ m ∈ search (fun _ _ => none) (fun _ => true) {} "r".data
        (FSTree.file { size := 3, bytes := [104, 105, 10] }) "hi".data,
      m.match_start ≤ m.match_end ∧ m.context_before.length ≤ 2 ∧
      m.context_after.length ≤ 2) ∧
    (∀ (mat : Matcher) (path : Str) (lines : List Str), MatcherOK mat →
      ∀ m ∈ searchTextLines {} mat path lines,
        ∃ i, i < lines.length ∧ m.line_number = i + 1 ∧
          m.match_start ≤ m.match_end ∧ m.match_end ≤ (lines.getD i []).length ∧
          m.line_content = rstripNl (lines.getD i []) ∧
          m.context_before.length ≤ min i 2 ∧
          m.context_after.length ≤ min (lines.length - (i + 1)) 2) :=
  search_invariants_amended (fun _ _ => none) (fun _ => true) {} "r".data
    (FSTree.file { size := 3, bytes := [104, 105, 10] }) "hi".data
    (fun _ _ _ h => Option.noConfusion h)

set_option maxRecDepth 1000000 in
/-- Counterexample to C1 as stated: in binary-hex mode on 150 `.` bytes
followed by `hit`, the single match reports `match_end = 153` while the
synthesized `line_content` (offset prefix plus a 19-byte hex window) is
only 73 characters long, so `match_end ≤ len(line_content)` fails. -/
theorem hex_match_end_exceeds_line :
    (search (fun _ _ => none) (fun _ => true) { hex_search := true } "f.dat".data
        (FSTree.file { size := 153, bytes := List.replicate 150 46 ++ [104, 105, 116] })
        "hit".data).map (fun m => (m.match_start, m.match_end, m.line_content.length)) =
      [(150, 153, 73)] ∧
    ∃ m ∈ search (fun _ _ => none) (fun _ => true) { hex_search := true } "f.dat".data
        (FSTree.file { size := 153, bytes := List.replicate 150 46 ++ [104, 105, 116] })
        "hit".data, m.line_content.length < m.match_end :=
  ⟨by decide, by decide⟩
